import Mathlib

/-!
# Verification of the godot-export-presets core

Shallow embedding of the repository's Godot config-file lexer/parser
(`src/parser.ts`), serializer (`src/writer.ts`), `ConfigFile` store
(`src/config-file.ts`), export-preset extraction
(`src/export-presets/parser.ts`) and preset merging
(`src/export-presets/merge.ts`).

Modelling conventions:
* JavaScript strings are modelled as `List Char`; the character `"\0"` used
  by the TypeScript stream as an end-of-input sentinel is `NUL` below.
* JavaScript numbers (IEEE-754 doubles) are idealised by the sum type `JNum`:
  `NaN`, `+Infinity`, `-Infinity`, or an exact rational.  `String(n)` for a
  finite number is modelled as the exact plain decimal expansion
  (`jsNumToString`); the theorems that depend on number printing restrict
  themselves to rationals with a finite decimal expansion lying in the range
  where JavaScript actually prints a plain (non-exponent) decimal.
* The TypeScript functions recurse via unbounded `while` loops; loops whose
  body consumes the head character are translated as structural recursion on
  the character list, and loops that consume via the tokenizer take an
  explicit fuel argument.  Every entry point supplies `content.length + 1`
  fuel, which is always sufficient because each iteration consumes at least
  one character; the theorems below track fuel explicitly.
* Thrown `ParseError`s are modelled with `Except ParseError`; the
  `try/catch` at the bottom of `parse_config` corresponds to the `.error`
  branches that package the error into the returned `ParseResult`.
-/

namespace GodotCfg

/-! ## Core types -/

/-- End-of-input sentinel character (`"\0"` in the TypeScript stream). -/
def NUL : Char := Char.ofNat 0

/-- A JavaScript number: `NaN`, `±Infinity`, or a finite value, idealised as
an exact rational. -/
inductive JNum where
  | nan
  | inf
  | ninf
  | finite (q : ℚ)
deriving DecidableEq, Repr

/-- The values the config parser/serializer works with: the closed union of
scalars, `Color` and `Vector2`. -/
inductive JValue where
  | null
  | bool (b : Bool)
  | num (n : JNum)
  | str (s : List Char)
  | color (r g b a : JNum)
  | vec2 (x y : JNum)
deriving DecidableEq, Repr

/-- A section body: an ordered key-to-value map (a JavaScript `Map`,
modelled as an association list in insertion order). -/
abbrev SectionMap := List (List Char × JValue)

/-- A parsed document: sections in insertion order, each with its entry
map. -/
abbrev Doc := List (List Char × SectionMap)

variable {κ : Type} [DecidableEq κ]

/-! ## JavaScript `Map` as an ordered association list -/

/-- `Map.has`. -/
def mapHas (m : List (κ × α)) (k : κ) : Bool :=
  m.any fun p => p.1 = k

/-- `Map.get`, as an `Option`. -/
def mapGet? (m : List (κ × α)) (k : κ) : Option α :=
  match m with
  | [] => none
  | (k', v) :: rest => if k' = k then some v else mapGet? rest k

/-- `Map.get` with a fallback for the impossible missing case. -/
def mapGetD (m : List (κ × α)) (k : κ) (d : α) : α :=
  (mapGet? m k).getD d

/-- `Map.set`: overwrite in place, or append a fresh entry. -/
def mapSet (m : List (κ × α)) (k : κ) (v : α) : List (κ × α) :=
  match m with
  | [] => [(k, v)]
  | (k', v') :: rest =>
      if k' = k then (k, v) :: rest else (k', v') :: mapSet rest k v

/-! ## Decimal printing and reading -/

/-- The decimal digit character for a value below ten. -/
def decDigit (n : ℕ) : Char := Char.ofNat (48 + n)

/-- Fueled digit-list extraction for `String(n)` on a natural number. -/
def natToDigitsAux : ℕ → ℕ → List Char
  | 0, _ => []
  | fuel + 1, n =>
      if n < 10 then [decDigit n]
      else natToDigitsAux fuel (n / 10) ++ [decDigit (n % 10)]

/-- The decimal digit string of a natural number (`String(n)`). -/
def natToDigits (n : ℕ) : List Char := natToDigitsAux (n + 1) n

/-- The numeric value of a digit character. -/
def digitVal (c : Char) : ℕ := c.toNat - 48

/-- The numeric value of a digit string (most significant first). -/
def digitsVal (ds : List Char) : ℕ :=
  ds.foldl (fun a c => 10 * a + digitVal c) 0

/-- Left-pad a digit string with zeros to the given width. -/
def padZeros (k : ℕ) (ds : List Char) : List Char :=
  List.replicate (k - ds.length) '0' ++ ds

/-- Fueled multiplicity counter. -/
def countFacAux : ℕ → ℕ → ℕ → ℕ
  | 0, _, _ => 0
  | fuel + 1, p, n =>
      if 2 ≤ p ∧ n % p = 0 ∧ n ≠ 0 then countFacAux fuel p (n / p) + 1 else 0

/-- The multiplicity of a prime factor `p` in `n`. -/
def countFac (p : ℕ) (n : ℕ) : ℕ := countFacAux n p n

/-- The decimal text of a positive rational: a plain decimal expansion when
the reduced denominator divides a power of ten (the case JavaScript's
`String(n)` prints for the numbers the round-trip covers). -/
def qPosToChars (q : ℚ) : List Char :=
  let a := countFac 2 q.den
  let b := countFac 5 q.den
  if q.den / 2 ^ a / 5 ^ b = 1 then
    let k := max a b
    let m := q.num.natAbs * 10 ^ k / q.den
    if k = 0 then natToDigits m
    else natToDigits (m / 10 ^ k) ++ '.' :: padZeros k (natToDigits (m % 10 ^ k))
  else natToDigits q.num.natAbs ++ '/' :: natToDigits q.den

/-- The decimal text of a rational (`String(n)` for a finite number). -/
def qToChars (q : ℚ) : List Char :=
  if q = 0 then ['0']
  else if q < 0 then '-' :: qPosToChars (-q)
  else qPosToChars q

/-- `String(value)` (and template-literal interpolation) on a number. -/
def jsNumToString : JNum → List Char
  | .nan => "NaN".toList
  | .inf => "Infinity".toList
  | .ninf => "-Infinity".toList
  | .finite q => qToChars q

/-- Longest digit prefix of a character list. -/
def takeDigits : List Char → List Char × List Char
  | [] => ([], [])
  | c :: rest =>
      if '0' ≤ c ∧ c ≤ '9' then
        let (ds, r) := takeDigits rest
        (c :: ds, r)
      else ([], c :: rest)

/-- The optional leading sign of a decimal literal. -/
def splitSign : List Char → Bool × List Char
  | '-' :: t => (true, t)
  | '+' :: t => (false, t)
  | s => (false, s)

/-- The optional fractional part (a dot and its digit run). -/
def fracPart : List Char → List Char
  | '.' :: t => (takeDigits t).1
  | _ => []

/-- `parseFloat` restricted to the plain decimal literals the lexer feeds
it: optional sign, digit run, optional fraction; `none` is `NaN`. -/
def parseFloatQ (s : List Char) : Option ℚ :=
  let (neg, s1) := splitSign s
  let (ds, s2) := takeDigits s1
  let fs : List Char := fracPart s2
  if ds.isEmpty ∧ fs.isEmpty then none
  else
    -- intDigits.fracDigits as the exact rational
    -- (intVal·10^|frac| + fracVal) / 10^|frac|, negated under a minus sign.
    let mag : ℚ := mkRat (digitsVal ds * 10 ^ fs.length + digitsVal fs) (10 ^ fs.length)
    some (if neg then -mag else mag)

/-! ## The lexer (`get_token`) -/

/-- The thrown `ParseError`: message and 1-based line number. -/
structure ParseError where
  msg : String
  line : ℕ
deriving DecidableEq, Repr

/-- The lexer's token kinds. -/
inductive TokType where
  | STRING
  | NUMBER
  | BOOLEAN
  | IDENTIFIER
  | BRACKET_OPEN
  | BRACKET_CLOSE
  | PARENTHESIS_OPEN
  | PARENTHESIS_CLOSE
  | EQUAL
  | COMMA
  | EOF
deriving DecidableEq, Repr

/-- A token's payload: text, number, or boolean. -/
inductive TokValue where
  | s (v : List Char)
  | n (v : JNum)
  | b (v : Bool)
deriving DecidableEq, Repr

/-- One lexed token with the line it started on. -/
structure Token where
  type : TokType
  value : TokValue
  line : ℕ
deriving DecidableEq, Repr

/-- The lexer's whitespace class: space, tab, carriage return, newline. -/
def is_whitespace (c : Char) : Bool :=
  c = ' ' || c = '\t' || c = '\r' || c = '\n'

/-- ASCII digit test. -/
def is_digit (c : Char) : Bool := '0' ≤ c && c ≤ '9'

/-- Letter or underscore. -/
def is_alpha (c : Char) : Bool :=
  ('a' ≤ c && c ≤ 'z') || ('A' ≤ c && c ≤ 'Z') || c = '_'

/-- Letter, underscore or digit. -/
def is_alnum (c : Char) : Bool := is_alpha c || is_digit c

/-- A character that may continue an identifier: alphanumeric, `/`, `.`,
`_` or `-`. -/
def is_identifier_char (c : Char) : Bool :=
  is_alnum c || c = '/' || c = '.' || c = '_' || c = '-'

/-- Advance the line counter over a consumed character. -/
def bumpLine (c : Char) (l : ℕ) : ℕ := if c = '\n' then l + 1 else l

/-- Consume leading whitespace, counting newlines. -/
def skip_ws : List Char → ℕ → List Char × ℕ
  | [], l => ([], l)
  | c :: rest, l =>
      if is_whitespace c then skip_ws rest (bumpLine c l) else (c :: rest, l)

/-- Consume to the end of the current line (for comments). -/
def skip_line : List Char → ℕ → List Char × ℕ
  | [], l => ([], l)
  | c :: rest, l =>
      if c = '\n' ∨ c = NUL then (rest, bumpLine c l)
      else skip_line rest (bumpLine c l)

/-- The escape sequences a quoted string recognises (`\n`, `\t`, `\r`,
`\\`, `\"`; anything else stands for itself). -/
def unescape_char (c : Char) : Char :=
  if c = 'n' then '\n' else if c = 't' then '\t' else if c = 'r' then '\r' else c

/-- The string-literal loop of `get_token`, started after the opening
quote.  `NUL` (end of input) is the `Unterminated string` error at the
opening line; an unescaped `"` always returns the token — the source's
lookahead at the following character picks between two identical returns
and is kept here as the same dead `if`. -/
def lex_string (openLine : ℕ) : List Char → ℕ → List Char → Bool →
    Except ParseError (Token × List Char × ℕ)
  | [], _, _, _ => .error ⟨"Unterminated string", openLine⟩
  | ch :: rest, l, str, escaped =>
      let l' := bumpLine ch l
      if ch = NUL then .error ⟨"Unterminated string", openLine⟩
      else if escaped then lex_string openLine rest l' (str ++ [unescape_char ch]) false
      else if ch = '\\' then lex_string openLine rest l' str true
      else if ch = '"' then
        match rest with
        | [] => .ok (⟨.STRING, .s str, openLine⟩, rest, l')
        | peek :: _ =>
            if peek = NUL ∨ peek = '\n' ∨ peek = '\r' ∨ peek = ' ' ∨
                peek = '\t' ∨ peek = ';' ∨ peek = '#' then
              .ok (⟨.STRING, .s str, openLine⟩, rest, l')
            else
              -- "For now, assume it's the end if followed by
              -- whitespace/comment/newline" — the code breaks here too.
              .ok (⟨.STRING, .s str, openLine⟩, rest, l')
      else lex_string openLine rest l' (str ++ [ch]) false

/-- The number-literal loop: digits with at most one dot. -/
def lex_number_loop : List Char → ℕ → List Char → Bool →
    List Char × List Char × ℕ
  | [], l, numStr, _ => (numStr, [], l)
  | c :: rest, l, numStr, hasDot =>
      if is_digit c then lex_number_loop rest (bumpLine c l) (numStr ++ [c]) hasDot
      else if c = '.' then
        if hasDot then (numStr, c :: rest, l)
        else lex_number_loop rest (bumpLine c l) (numStr ++ [c]) true
      else (numStr, c :: rest, l)

/-- The identifier loop: consume identifier characters. -/
def lex_ident_loop : List Char → ℕ → List Char → List Char × List Char × ℕ
  | [], l, ident => (ident, [], l)
  | c :: rest, l, ident =>
      if is_identifier_char c then lex_ident_loop rest (bumpLine c l) (ident ++ [c])
      else (ident, c :: rest, l)

/-- The tokenizer.  One token per call: punctuation, comment skip and
retry, quoted string, number (with one-character lookahead after a sign or
dot), `true`/`false`/identifier; anything else is the fatal
`Unexpected character` error.  Fueled for the comment-retry recursion. -/
def get_token : ℕ → List Char → ℕ → Except ParseError (Token × List Char × ℕ)
  | 0, _, l => .error ⟨"out of fuel", l⟩
  | fuel + 1, cs0, l0 =>
      let (cs, line) := skip_ws cs0 l0
      match cs with
      | [] => .ok (⟨.EOF, .s [], line⟩, [], line)
      | c :: rest =>
          let l1 := bumpLine c line
          if c = NUL then .ok (⟨.EOF, .s [], line⟩, rest, l1)
          else if c = '[' then .ok (⟨.BRACKET_OPEN, .s [c], line⟩, rest, l1)
          else if c = ']' then .ok (⟨.BRACKET_CLOSE, .s [c], line⟩, rest, l1)
          else if c = '(' then .ok (⟨.PARENTHESIS_OPEN, .s [c], line⟩, rest, l1)
          else if c = ')' then .ok (⟨.PARENTHESIS_CLOSE, .s [c], line⟩, rest, l1)
          else if c = '=' then .ok (⟨.EQUAL, .s [c], line⟩, rest, l1)
          else if c = ',' then .ok (⟨.COMMA, .s [c], line⟩, rest, l1)
          else if c = ';' ∨ c = '#' then
            let (cs2, l2) := skip_line rest l1
            get_token fuel cs2 l2
          else if c = '"' then lex_string line rest l1 [] false
          else
            let peek := match rest with | [] => NUL | p :: _ => p
            if is_digit c || (c = '-' && is_digit peek) ||
                (c = '+' && is_digit peek) || (c = '.' && is_digit peek) then
              let (numStr, cs2, l2) := lex_number_loop rest l1 [c] (c = '.')
              match parseFloatQ numStr with
              | none => .error ⟨"Invalid number: " ++ String.mk numStr, line⟩
              | some q => .ok (⟨.NUMBER, .n (.finite q), line⟩, cs2, l2)
            else if is_alpha c || c = '/' then
              let (ident, cs2, l2) := lex_ident_loop rest l1 [c]
              if ident = "true".toList then .ok (⟨.BOOLEAN, .b true, line⟩, cs2, l2)
              else if ident = "false".toList then .ok (⟨.BOOLEAN, .b false, line⟩, cs2, l2)
              else .ok (⟨.IDENTIFIER, .s ident, line⟩, cs2, l2)
            else .error ⟨"Unexpected character: " ++ String.mk [c], line⟩

/-! ## The value parser (`parse_value`) -/

/-- `String(value)` applied to a token's payload. -/
def tokValStr : TokValue → List Char
  | .s v => v
  | .n jn => jsNumToString jn
  | .b b => (if b then "true" else "false").toList

/-- A scalar token's payload as a document value. -/
def tokValToJVal : TokValue → JValue
  | .s v => .str v
  | .n v => .num v
  | .b v => .bool v

/-- One constructor argument: a number token, or one of the sentinel
identifiers `inf`, `-inf`, `nan` (only reachable for `inf`/`nan`, since the
lexer rejects `-` before an identifier). -/
def parse_construct_one (tok : Token) : Except ParseError JNum :=
  match tok.type with
  | .NUMBER =>
      -- `token.value as number`; NUMBER tokens always carry a number.
      match tok.value with
      | .n jn => .ok jn
      | _ => .ok .nan
  | .IDENTIFIER =>
      let ident := tokValStr tok.value
      if ident = "inf".toList ∨ ident = "Infinity".toList then .ok .inf
      else if ident = "-inf".toList ∨ ident = "-Infinity".toList then .ok .ninf
      else if ident = "nan".toList ∨ ident = "NaN".toList then .ok .nan
      else .error ⟨"Expected number in constructor, got: " ++ String.mk ident, tok.line⟩
  | _ => .error ⟨"Expected number in constructor", tok.line⟩

/-- The comma-separated argument loop of a constructor, ended by `)`. -/
def parse_construct_args_loop : ℕ → Bool → List JNum → List Char → ℕ →
    Except ParseError (List JNum × List Char × ℕ)
  | 0, _, _, _, l => .error ⟨"out of fuel", l⟩
  | fuel + 1, true, args, cs, l =>
      match get_token (fuel + 1) cs l with
      | .error e => .error e
      | .ok (tok, cs1, l1) =>
          if tok.type = .PARENTHESIS_CLOSE then .ok (args, cs1, l1)
          else
            match parse_construct_one tok with
            | .error e => .error e
            | .ok jn => parse_construct_args_loop fuel false (args ++ [jn]) cs1 l1
  | fuel + 1, false, args, cs, l =>
      match get_token (fuel + 1) cs l with
      | .error e => .error e
      | .ok (sep, cs1, l1) =>
          if sep.type = .COMMA then
            match get_token (fuel + 1) cs1 l1 with
            | .error e => .error e
            | .ok (tok, cs2, l2) =>
                match parse_construct_one tok with
                | .error e => .error e
                | .ok jn => parse_construct_args_loop fuel false (args ++ [jn]) cs2 l2
          else if sep.type = .PARENTHESIS_CLOSE then .ok (args, cs1, l1)
          else .error ⟨"Expected ',' or ')' in constructor", sep.line⟩

/-- `(`, then the argument loop. -/
def parse_construct_args (fuel : ℕ) (cs : List Char) (l : ℕ) :
    Except ParseError (List JNum × List Char × ℕ) :=
  match get_token fuel cs l with
  | .error e => .error e
  | .ok (tok, cs1, l1) =>
      if tok.type = .PARENTHESIS_OPEN then
        parse_construct_args_loop fuel true [] cs1 l1
      else .error ⟨"Expected '(' in constructor", tok.line⟩

/-- One token dispatched by kind; identifiers `Color` and `Vector2`
consume an argument list of the exact arity, any other identifier is the
fatal `Unknown identifier` error. -/
def parse_value (fuel : ℕ) (cs : List Char) (l : ℕ) :
    Except ParseError (JValue × List Char × ℕ) :=
  match get_token fuel cs l with
  | .error e => .error e
  | .ok (tok, cs1, l1) =>
      match tok.type with
      | .STRING => .ok (tokValToJVal tok.value, cs1, l1)
      | .NUMBER => .ok (tokValToJVal tok.value, cs1, l1)
      | .BOOLEAN => .ok (tokValToJVal tok.value, cs1, l1)
      | .IDENTIFIER =>
          let ident := tokValStr tok.value
          if ident = "Color".toList then
            match parse_construct_args fuel cs1 l1 with
            | .error e => .error e
            | .ok (args, cs2, l2) =>
                match args with
                | [r, g, b, a] => .ok (.color r g b a, cs2, l2)
                | _ => .error ⟨"Expected 4 arguments for Color constructor", tok.line⟩
          else if ident = "Vector2".toList then
            match parse_construct_args fuel cs1 l1 with
            | .error e => .error e
            | .ok (args, cs2, l2) =>
                match args with
                | [x, y] => .ok (.vec2 x y, cs2, l2)
                | _ => .error ⟨"Expected 2 arguments for Vector2 constructor", tok.line⟩
          else .error ⟨"Unknown identifier: " ++ String.mk ident, tok.line⟩
      | t => .error ⟨"Unexpected token type: " ++ reprStr t, tok.line⟩

/-! ## The document parser (`parse_config`) -/

/-- The result of `parse_config`: the (possibly partial) document plus an
optional structured error — the caught `ParseError`. -/
structure ParseResult where
  values : Doc
  error : Option ParseError
deriving DecidableEq, Repr

/-- Escaped-bracket replacement on a section name
(`sectionName.replace(/\\\]/g, "]")`). -/
def unescape_brackets : List Char → List Char
  | '\\' :: ']' :: rest => ']' :: unescape_brackets rest
  | c :: rest => c :: unescape_brackets rest
  | [] => []

/-- Store `key = value` into the current section, creating the section
first when absent (the key/value branch of the `parse_config` loop). -/
def docSet (values : Doc) (s k : List Char) (v : JValue) : Doc :=
  let d1 := if mapHas values s then values else mapSet values s []
  mapSet d1 s (mapSet (mapGetD d1 s []) k v)

/-- The top-level loop of `parse_config`.  A thrown `ParseError` is caught
here and returned with whatever was built so far.  Tokens matching no
branch of the dispatch are silently skipped, exactly as in the TypeScript
`if`/`else if` chain. -/
def parse_config_loop : ℕ → Doc → List Char → List Char → ℕ → ParseResult
  | 0, values, _, _, _ => ⟨values, some ⟨"out of fuel", 0⟩⟩
  | fuel + 1, values, currentSection, cs0, l0 =>
      let (cs, l) := skip_ws cs0 l0
      match get_token (fuel + 1) cs l with
      | .error e => ⟨values, some e⟩
      | .ok (tok, cs1, l1) =>
          match tok.type with
          | .EOF => ⟨values, none⟩
          | .BRACKET_OPEN =>
              match get_token (fuel + 1) cs1 l1 with
              | .error e => ⟨values, some e⟩
              | .ok (sectionToken, cs2, l2) =>
                  if sectionToken.type = .IDENTIFIER ∨ sectionToken.type = .STRING then
                    match get_token (fuel + 1) cs2 l2 with
                    | .error e => ⟨values, some e⟩
                    | .ok (closeToken, cs3, l3) =>
                        if closeToken.type = .BRACKET_CLOSE then
                          let sectionName := unescape_brackets (tokValStr sectionToken.value)
                          let values' :=
                            if mapHas values sectionName then values
                            else mapSet values sectionName []
                          parse_config_loop fuel values' sectionName cs3 l3
                        else ⟨values, some ⟨"Expected ']' after section name", closeToken.line⟩⟩
                  else ⟨values, some ⟨"Expected section name", sectionToken.line⟩⟩
          | .IDENTIFIER | .STRING =>
              -- key/value pair — the key is an identifier or a quoted string
              let key := tokValStr tok.value
              match get_token (fuel + 1) cs1 l1 with
              | .error e => ⟨values, some e⟩
              | .ok (equalToken, cs2, l2) =>
                  if equalToken.type = .EQUAL then
                    match parse_value (fuel + 1) cs2 l2 with
                    | .error e => ⟨values, some e⟩
                    | .ok (v, cs3, l3) =>
                        parse_config_loop fuel (docSet values currentSection key v)
                          currentSection cs3 l3
                  else ⟨values, some ⟨"Expected '=' after key", equalToken.line⟩⟩
          | .BRACKET_CLOSE => ⟨values, some ⟨"Unexpected ']'", tok.line⟩⟩
          | _ => parse_config_loop fuel values currentSection cs1 l1

/-- `parse_config`: run the loop on a fresh stream (line 1, current section
the section-less `""`). -/
def parse_config (content : List Char) : ParseResult :=
  parse_config_loop (content.length + 1) [] [] content 1

/-! ## The serializer -/

/-- Quote a key iff it is empty or contains `=`, `"`, `;`, `[`, `]`, a
character below 33, or a character above 126. -/
def needs_quotes (str : List Char) : Bool :=
  str.isEmpty ||
    str.any fun c =>
      c.toNat = 61 || c.toNat = 34 || c.toNat = 59 || c.toNat = 91 ||
        c.toNat = 93 || c.toNat < 33 || c.toNat > 126

/-- Escape one character for a quoted key or string literal
(`.replace(/\\/g, ...)` then `.replace(/"/g, ...)` equals this single
pass). -/
def escape_char (c : Char) : List Char :=
  if c = '\\' then ['\\', '\\'] else if c = '"' then ['\\', '"'] else [c]

/-- Backslashes and double quotes escaped; newlines kept. -/
def escape_string (str : List Char) : List Char :=
  (str.map escape_char).flatten

/-- `encode_key`: quoted with escapes when needed, bare otherwise. -/
def encode_key (key : List Char) : List Char :=
  if needs_quotes key then '"' :: escape_string key ++ ['"'] else key

/-- The number branch of `serialize_value` (`nan`/`inf`/`-inf` spellings
for the non-finite values, `String(value)` otherwise). -/
def serialize_num : JNum → List Char
  | .nan => "nan".toList
  | .inf => "inf".toList
  | .ninf => "-inf".toList
  | .finite q => qToChars q

/-- The `null`/string/number/boolean/Color/Vector2 serialization chain
(the structural duck-typing tests of the TypeScript become constructor
dispatch on the closed union). -/
def serialize_value : JValue → List Char
  | .null => "null".toList
  | .str s => '"' :: escape_string s ++ ['"']
  | .num n => serialize_num n
  | .bool b => (if b then "true" else "false").toList
  | .color r g b a =>
      "Color(".toList ++ jsNumToString r ++ ", ".toList ++ jsNumToString g ++
        ", ".toList ++ jsNumToString b ++ ", ".toList ++ jsNumToString a ++ [')']
  | .vec2 x y =>
      "Vector2(".toList ++ jsNumToString x ++ ", ".toList ++ jsNumToString y ++ [')']

/-- Escape `]` in an emitted section name
(`section.replace(/\]/g, "\\]")`). -/
def escape_brackets : List Char → List Char
  | [] => []
  | c :: rest => (if c = ']' then ['\\', ']'] else [c]) ++ escape_brackets rest

/-- The lines pushed by `serialize_config`: a separating blank line before
every section but the first, a `[name]` line plus a blank line for named
sections, then one `key=value` line per entry. -/
def serialize_lines : Doc → Bool → List (List Char)
  | [], _ => []
  | (section_, keys) :: rest, first =>
      ((if first then [] else [([] : List Char)]) ++
        (if section_ ≠ [] then ['[' :: escape_brackets section_ ++ [']'], []] else []) ++
        keys.map fun kv => encode_key kv.1 ++ '=' :: serialize_value kv.2) ++
      serialize_lines rest false

/-- Join the serialized lines with newlines and append the trailing
newline. -/
def serialize_config (values : Doc) : List Char :=
  List.intercalate ['\n'] (serialize_lines values true) ++ ['\n']

/-! ## `ConfigFile` -/

/-- `ConfigFile.parse`: on error report it and leave the stored values
untouched; on success install the parsed values. -/
def ConfigFile.parse (stored : Doc) (content : List Char) :
    Option ParseError × Doc :=
  let r := parse_config content
  match r.error with
  | some e => (some e, stored)
  | none => (none, r.values)

/-- `ConfigFile.set_value`. -/
def ConfigFile.set_value (values : Doc) (section_ key : List Char) (v : JValue) :
    Doc :=
  let d1 := if mapHas values section_ then values else mapSet values section_ []
  mapSet d1 section_ (mapSet (mapGetD d1 section_ []) key v)

/-- `ConfigFile.encode_to_text`. -/
def ConfigFile.encode_to_text (values : Doc) : List Char :=
  serialize_config values

/-- `ConfigFile.get_sections`. -/
def ConfigFile.get_sections (values : Doc) : List (List Char) :=
  values.map Prod.fst

/-- `ConfigFile.get_section_keys` paired with `get_value` on each key,
modelled by returning the section's entry list itself. -/
def ConfigFile.section_entries (values : Doc) (section_ : List Char) : SectionMap :=
  mapGetD values section_ []

/-- `ConfigFile.has_section`. -/
def ConfigFile.has_section (values : Doc) (section_ : List Char) : Bool :=
  mapHas values section_

/-! ## Preset merging (`export-presets/merge.ts`) -/

/-- An untyped JavaScript value as `merge.ts` sees one: primitives,
arrays, plain objects, plus `undefined`. -/
inductive JSVal where
  | vundef
  | vnull
  | vbool (b : Bool)
  | vnum (n : JNum)
  | vstr (s : String)
  | varr (xs : List JSVal)
  | vobj (fields : List (String × JSVal))

/-- A plain JavaScript object: its property list in property order. -/
abbrev JSObj := List (String × JSVal)

/-- A non-null, non-array object with the plain prototype. -/
def isPlainObject : JSVal → Bool
  | .vobj _ => true
  | _ => false

/-- `deepMerge`: fold the source properties into the target, recursing
when both sides hold plain objects under a key other than `"options"`.
The fuel bounds the nesting recursion; concrete runs pass a bound larger
than the nesting depth. -/
def deepMerge : ℕ → JSObj → JSObj → JSObj
  | _, result, [] => result
  | 0, result, _ :: _ => result
  | fuel + 1, result, (key, sourceValue) :: rest =>
      let result' :=
        match mapGet? result key, sourceValue with
        | some (.vobj targetFields), .vobj sourceFields =>
            if key ≠ "options" then
              mapSet result key (.vobj (deepMerge fuel targetFields sourceFields))
            else mapSet result key sourceValue
        | _, _ => mapSet result key sourceValue
      deepMerge fuel result' rest

/-- `Object.assign(acc, o)`. -/
def objAssign (acc : JSObj) (o : JSObj) : JSObj :=
  o.foldl (fun m kv => mapSet m kv.1 kv.2) acc

/-- `mergeOptions(...options)`: a flat shallow overlay. -/
def mergeOptions : List JSObj → JSObj
  | [] => []
  | [o] => o
  | options => options.foldl objAssign []

/-- `merged.options || {}`. -/
def optsOf (p : JSObj) : JSObj :=
  match mapGet? p "options" with
  | some (.vobj o) => o
  | _ => []

/-- The copy made of the first preset: a spread plus an explicit
(re)assignment of `options`, to a copy or to `undefined`. -/
def copyPreset (p : JSObj) : JSObj :=
  match mapGet? p "options" with
  | some (.vobj o) => mapSet p "options" (.vobj o)
  | _ => mapSet p "options" JSVal.vundef

/-- The fold over the second and later presets of `mergePresets`. -/
def mergePresetsGo (fuel : ℕ) : JSObj → List JSObj → JSObj
  | merged, [] => merged
  | merged, current :: rest =>
      let currentWithoutOptions := current.filter fun kv => kv.1 ≠ "options"
      let m1 := deepMerge fuel merged currentWithoutOptions
      let m2 := mapSet m1 "options" (.vobj (mergeOptions [optsOf m1, optsOf current]))
      mergePresetsGo fuel m2 rest

/-- `mergePresets(...presets)`: error on zero presets, a copy for one,
else a left-to-right fold of deep merge (non-options) plus shallow options
merge. -/
def mergePresets (fuel : ℕ) : List JSObj → Except String JSObj
  | [] => .error "At least one preset required for merging"
  | [p] => .ok (copyPreset p)
  | p :: rest => .ok (mergePresetsGo fuel (copyPreset p) rest)

/-! ## Export-preset extraction (`export-presets/parser.ts`) -/

/-- `String.prototype.startsWith`. -/
def startsWithL : List Char → List Char → Bool
  | _, [] => true
  | [], _ :: _ => false
  | c :: cs, p :: ps => c = p && startsWithL cs ps

/-- `String.prototype.includes`. -/
def containsSub : List Char → List Char → Bool
  | [], sub => sub.isEmpty
  | c :: rest, sub => startsWithL (c :: rest) sub || containsSub rest sub

/-- `String.prototype.split(".")`. -/
def splitDot : List Char → List (List Char)
  | [] => [[]]
  | c :: rest =>
      let r := splitDot rest
      if c = '.' then [] :: r
      else
        match r with
        | h :: t => (c :: h) :: t
        | [] => [[c]]

/-- `parseInt(s, 10)`: optional sign then a digit prefix; `none` is
`NaN`. -/
def parseIntModel (s : List Char) : Option ℤ :=
  let s0 := s.dropWhile fun c => is_whitespace c
  let (sgn, s1) : ℤ × List Char :=
    match s0 with
    | '-' :: t => (-1, t)
    | '+' :: t => (1, t)
    | _ => (1, s0)
  let (ds, _) := takeDigits s1
  if ds.isEmpty then none else some (sgn * (digitsVal ds : ℤ))

/-- `parseInt(section.split(".")[1] || "0", 10)`. -/
def presetIndex (s : List Char) : Option ℤ :=
  let part := ((splitDot s).getD 1 [])
  parseIntModel (if part.isEmpty then "0".toList else part)

/-- The sort comparator `aNum - bNum` read as "may stay before"; a `NaN`
comparison counts as `0` (elements keep their relative order). -/
def presetCmpLe (a b : List Char) : Bool :=
  match presetIndex a, presetIndex b with
  | some x, some y => x - y ≤ 0
  | _, _ => true

/-- Stable insertion used to model `Array.prototype.sort`. -/
def sortInsert (x : List Char) : List (List Char) → List (List Char)
  | [] => [x]
  | y :: ys => if presetCmpLe y x then y :: sortInsert x ys else x :: y :: ys

/-- Stable sort by `presetCmpLe` (left-to-right insertion). -/
def sortPresetSections (l : List (List Char)) : List (List Char) :=
  l.foldl (fun acc x => sortInsert x acc) []

/-- One extracted export preset: the record fields (including defaulted
`name`/`platform`/`runnable`) and the optional `options` mapping. -/
structure ExportPreset where
  fields : SectionMap
  options : Option SectionMap
deriving DecidableEq, Repr

/-- The record initialiser `{name: "", platform: "", runnable: false}`. -/
def initPresetFields : SectionMap :=
  [("name".toList, .str []), ("platform".toList, .str []),
    ("runnable".toList, .bool false)]

/-- The per-section field loop: copy every key except `options` onto the
initialised record. -/
def buildPresetFields (kvs : SectionMap) : SectionMap :=
  kvs.foldl
    (fun acc kv => if kv.1 = "options".toList then acc else mapSet acc kv.1 kv.2)
    initPresetFields

/-- `parseExportPresets`: parse the document (a parse error propagates as
a thrown exception), collect the `preset.<N>` sections (excluding
`.options` sections), sort them by numeric suffix, and build one record
per section with its paired `preset.<N>.options` mapping. -/
def parseExportPresets (content : List Char) : Except ParseError (List ExportPreset) :=
  let r := parse_config content
  match r.error with
  | some e => .error e
  | none =>
      let cf := r.values
      let sections := ConfigFile.get_sections cf
      let presetSections := sortPresetSections (sections.filter fun s =>
        startsWithL s "preset.".toList && !containsSub s ".options".toList)
      .ok (presetSections.map fun ps =>
        let kvs := ConfigFile.section_entries cf ps
        let optionsSection := ps ++ ".options".toList
        { fields := buildPresetFields kvs
          options :=
            if ConfigFile.has_section cf optionsSection then
              some (ConfigFile.section_entries cf optionsSection)
            else none })

/-! ## Specification-side predicates and rendered texts -/

/-- Rationals whose reduced denominator divides a power of ten: exactly
the finite numbers whose printed text is a plain decimal that
`parseFloat` reads back unchanged. -/
def decimalDen (q : ℚ) : Prop :=
  q.den / 2 ^ countFac 2 q.den / 5 ^ countFac 5 q.den = 1

instance : DecidablePred decimalDen := fun q =>
  inferInstanceAs (Decidable (_ = 1))

/-- The magnitude range in which JavaScript prints a plain (non-exponent)
decimal. -/
def plainRange (q : ℚ) : Prop :=
  q.num.natAbs < 10 ^ 21 * q.den ∧ (q.num = 0 ∨ q.den ≤ q.num.natAbs * 10 ^ 6)

instance : DecidablePred plainRange := fun _ =>
  inferInstanceAs (Decidable (_ ∧ _))

/-- A character that may start an identifier token. -/
def identStartB (c : Char) : Bool := is_alpha c || c = '/'

/-- A nonempty text that lexes as one identifier token. -/
def identShapedB : List Char → Bool
  | [] => false
  | c :: rest => identStartB c && (c :: rest).all is_identifier_char

/-- The first character of `t`, if any, fails `f`. -/
def headNotB (f : Char → Bool) (t : List Char) : Prop :=
  ∀ c r, t = c :: r → f c = false

/-- The first character of `t`, if any, cannot continue a number
literal. -/
def headNotNum (t : List Char) : Prop :=
  ∀ c r, t = c :: r → is_digit c = false ∧ c ≠ '.'

/-- A finite decimal number in JavaScript's plain-printing range: the
numbers whose serialized text is read back exactly. -/
def goodNum : JNum → Prop
  | .finite q => decimalDen q ∧ plainRange q
  | _ => False

instance : DecidablePred goodNum := fun n => by
  cases n <;> · unfold goodNum; infer_instance

/-- The values of the round-trip theorem: booleans, NUL-free strings,
finite decimal numbers, and `Color`/`Vector2` with finite decimal
components. -/
def goodValue : JValue → Prop
  | .bool _ => True
  | .str s => NUL ∉ s
  | .num n => goodNum n
  | .color r g b a => goodNum r ∧ goodNum g ∧ goodNum b ∧ goodNum a
  | .vec2 x y => goodNum x ∧ goodNum y
  | .null => False

instance : DecidablePred goodValue := fun v => by
  cases v <;> · unfold goodValue; infer_instance

/-- The textual form of one constructor argument in config text: a printed
number, or one of the accepted sentinel identifiers. -/
def renderCtorArg : JNum → List Char
  | .finite q => qToChars q
  | .inf => "inf".toList
  | .ninf => "-inf".toList
  | .nan => "nan".toList

/-- The argument values `parse_construct_args` accepts in this rendering
(`-inf` is excluded: a leading `-` before an identifier is a lexer
error). -/
def goodCtorArg : JNum → Prop
  | .finite q => decimalDen q
  | .inf => True
  | .nan => True
  | .ninf => False

instance : DecidablePred goodCtorArg := fun n => by
  cases n <;> · unfold goodCtorArg; infer_instance

/-- The text after the first argument: a comma, a space and the argument,
for each further one. -/
def ctorTailText (xs : List JNum) : List Char :=
  (xs.map fun x => ',' :: ' ' :: renderCtorArg x).flatten

/-- The full argument text, parentheses excluded. -/
def ctorArgsText : List JNum → List Char
  | [] => []
  | x :: xs => renderCtorArg x ++ ctorTailText xs

/-- One serialized `key=value` line, with its terminating newline. -/
def kvLine (kv : List Char × JValue) : List Char :=
  encode_key kv.1 ++ '=' :: serialize_value kv.2 ++ ['\n']

/-- The serialized text of a run of `key=value` lines. -/
def kvsText (kvs : SectionMap) : List Char :=
  (kvs.map kvLine).flatten

/-- A key the round-trip handles: NUL-free, and when emitted bare it must
lex back as a single `IDENTIFIER` token. -/
def goodKey (k : List Char) : Prop :=
  NUL ∉ k ∧ (needs_quotes k = false →
    identShapedB k = true ∧ k ≠ "true".toList ∧ k ≠ "false".toList)

instance : DecidablePred goodKey := fun k => by
  unfold goodKey
  infer_instance

/-- The text one serialized section contributes: its separating blank
line, header lines, and `key=value` lines, newlines included. -/
def sectionText (first : Bool) (sec : List Char) (kvs : SectionMap) : List Char :=
  (if first then [] else ['\n']) ++
    (if sec ≠ [] then '[' :: escape_brackets sec ++ [']', '\n', '\n'] else []) ++
    kvsText kvs

/-- The serialized text of a document, section block by section block. -/
def blocksText : Doc → Bool → List Char
  | [], _ => []
  | (sec, kvs) :: rest, first => sectionText first sec kvs ++ blocksText rest false

/-- The loop fuel a document consumes: one step per header plus one per
key. -/
def blocksFuel : Doc → ℕ
  | [] => 0
  | (_, kvs) :: rest => kvs.length + 1 + blocksFuel rest

/-- Joined serialized lines: each line followed by its newline. -/
def linesText (lines : List (List Char)) : List Char :=
  (lines.map (fun ln => ln ++ ['\n'])).flatten

/-- A section name that lexes back as one `IDENTIFIER` token. -/
def goodSectionName (sec : List Char) : Prop :=
  identShapedB sec = true ∧ sec ≠ "true".toList ∧ sec ≠ "false".toList

instance : DecidablePred goodSectionName := fun sec => by
  unfold goodSectionName
  infer_instance

/-- The documents whose serialized text parses back to themselves:
distinct identifier-shaped section names (the implicit `""` section, if
present, only in first position and nonempty), distinct round-trippable
keys, and round-trippable values. -/
def Serializable (d : Doc) : Prop :=
  (d.map Prod.fst).Nodup ∧
  (∀ p ∈ d, (p.2.map Prod.fst).Nodup ∧ ∀ kv ∈ p.2, goodKey kv.1 ∧ goodValue kv.2) ∧
  (∀ p ∈ d.tail, goodSectionName p.1) ∧
  (∀ p ∈ d.take 1, if p.1 = [] then p.2 ≠ [] else goodSectionName p.1)

instance : DecidablePred Serializable := fun d => by
  unfold Serializable
  infer_instance

/-! ## Concrete documents and objects for the claim theorems -/

/-- A serializable document exercising both sections and every good value
kind (boolean, number, multi-line string, `Color`, `Vector2`, quoted
key). -/
def docRT : Doc :=
  [([], [("a".toList, .num (.finite 1)), ("s".toList, .str "x\ny".toList)]),
   ("sec".toList,
    [("c".toList, .color (.finite 0) (.finite (mkRat 1 2)) (.finite 1) (.finite 1)),
     ("a=b".toList, .num (.finite 7)),
     ("v".toList, .vec2 (.finite 3) (.finite (mkRat (-25) 10)))])]

/-- The base preset of the spec's merge example. -/
def baseC5 : JSObj :=
  [("runnable", .vbool true), ("export_path", .vstr "a.apk"),
   ("options", .vobj [("x", .vbool true), ("y", .vbool false)])]

/-- The override preset of the spec's merge example. -/
def overrideC5 : JSObj :=
  [("runnable", .vbool false), ("export_path", .vstr "a.aab"),
   ("options", .vobj [("y", .vbool true), ("z", .vstr "new")])]

/-- The merged preset the spec's merge example requires. -/
def mergedC5 : JSObj :=
  [("runnable", .vbool false), ("export_path", .vstr "a.aab"),
   ("options", .vobj [("x", .vbool true), ("y", .vbool true), ("z", .vstr "new")])]

/-- A preset whose non-`options` field `x` nests a mapping under a key
literally named `options`. -/
def nbaseC5 : JSObj := [("x", .vobj [("options", .vobj [("p", .vnum (.finite 1))])])]

/-- An override for `nbaseC5` nesting a disjoint mapping at the same
path. -/
def noverC5 : JSObj := [("x", .vobj [("options", .vobj [("q", .vnum (.finite 2))])])]

/-- An `export_presets.cfg` text with two presets (listed out of order)
and one options section. -/
def contentC10 : List Char :=
  ("[preset.1]\n\nrunnable=true\n\n[preset.0]\n\nname=\"Android\"\n\n" ++
    "[preset.0.options]\n\nexport/apk=true\n").toList

/-- The records `parseExportPresets` extracts from `contentC10`. -/
def presetsC10 : List ExportPreset :=
  [{ fields := [("name".toList, .str "Android".toList),
                ("platform".toList, .str []),
                ("runnable".toList, .bool false)]
     options := some [("export/apk".toList, .bool true)] },
   { fields := [("name".toList, .str []),
                ("platform".toList, .str []),
                ("runnable".toList, .bool true)]
     options := none }]

/-! ## Lemmas -/

theorem mapHas_iff {m : List (κ × α)} {k : κ} :
    mapHas m k = true ↔ k ∈ m.map Prod.fst := by
  induction m with
  | nil => simp [mapHas]
  | cons p rest ih =>
      cases p with
      | mk k' v' =>
          simp only [mapHas, List.any_cons, List.map_cons, List.mem_cons,
            Bool.or_eq_true, decide_eq_true_eq] at ih ⊢
          constructor
          · rintro (h | h)
            · exact Or.inl h.symm
            · exact Or.inr (ih.mp h)
          · rintro (h | h)
            · exact Or.inl h.symm
            · exact Or.inr (ih.mpr h)

theorem mapSet_append_of_not_mem {m : List (κ × α)} {k : κ} (v : α)
    (h : k ∉ m.map Prod.fst) : mapSet m k v = m ++ [(k, v)] := by
  induction m with
  | nil => simp [mapSet]
  | cons p rest ih =>
      cases p with
      | mk k' v' =>
          simp only [List.map_cons, List.mem_cons] at h
          push_neg at h
          simp [mapSet, Ne.symm h.1, ih h.2]

theorem mapSet_inplace {pre : List (κ × α)} {k : κ} {old : α} (post) (v : α)
    (h : k ∉ pre.map Prod.fst) :
    mapSet (pre ++ (k, old) :: post) k v = pre ++ (k, v) :: post := by
  induction pre with
  | nil => simp [mapSet]
  | cons p rest ih =>
      cases p with
      | mk k' v' =>
          simp only [List.map_cons, List.mem_cons] at h
          push_neg at h
          simp [mapSet, Ne.symm h.1, ih h.2]

theorem mapGet?_eq_none {m : List (κ × α)} {k : κ} (h : k ∉ m.map Prod.fst) :
    mapGet? m k = none := by
  induction m with
  | nil => rfl
  | cons p rest ih =>
      cases p with
      | mk k' v' =>
          simp only [List.map_cons, List.mem_cons] at h
          push_neg at h
          simp [mapGet?, Ne.symm h.1, ih h.2]

theorem mapGet?_inplace {pre : List (κ × α)} {k : κ} (v : α) (post)
    (h : k ∉ pre.map Prod.fst) :
    mapGet? (pre ++ (k, v) :: post) k = some v := by
  induction pre with
  | nil => simp [mapGet?]
  | cons p rest ih =>
      cases p with
      | mk k' v' =>
          simp only [List.map_cons, List.mem_cons] at h
          push_neg at h
          simp [mapGet?, Ne.symm h.1, ih h.2]

theorem mapHas_append_iff {m m' : List (κ × α)} {k : κ} :
    mapHas (m ++ m') k = (mapHas m k || mapHas m' k) := by
  simp [mapHas, List.any_append]

theorem digitVal_decDigit {n : ℕ} (h : n < 10) : digitVal (decDigit n) = n := by
  interval_cases n <;> rfl

theorem is_digit_decDigit {n : ℕ} (h : n < 10) : is_digit (decDigit n) = true := by
  interval_cases n <;> rfl

theorem is_digit_iff {c : Char} : is_digit c = true ↔ 48 ≤ c.toNat ∧ c.toNat ≤ 57 := by
  constructor
  · intro h
    simp only [is_digit, Bool.and_eq_true, decide_eq_true_eq] at h
    obtain ⟨h1, h2⟩ := h
    exact ⟨h1, h2⟩
  · intro ⟨h1, h2⟩
    simp only [is_digit, Bool.and_eq_true, decide_eq_true_eq]
    exact ⟨h1, h2⟩

theorem digitsVal_append (a b : List Char) :
    digitsVal (a ++ b) = digitsVal a * 10 ^ b.length + digitsVal b := by
  induction b generalizing a with
  | nil => simp [digitsVal]
  | cons c rest ih =>
      have h1 : a ++ c :: rest = (a ++ [c]) ++ rest := by simp
      rw [h1, ih (a ++ [c])]
      have h2 : digitsVal (a ++ [c]) = 10 * digitsVal a + digitVal c := by
        simp [digitsVal, List.foldl_append]
      have h3 : digitsVal (c :: rest) = digitsVal ([c] ++ rest) := by simp
      rw [h3, ih [c]]
      have h4 : digitsVal [c] = digitVal c := by simp [digitsVal, digitVal]
      rw [h2, h4]
      simp only [List.length_cons, pow_succ]
      ring

theorem digitsVal_replicate_zero (j : ℕ) (ds : List Char) :
    digitsVal (List.replicate j '0' ++ ds) = digitsVal ds := by
  rw [digitsVal_append]
  have : digitsVal (List.replicate j '0') = 0 := by
    induction j with
    | zero => rfl
    | succ n ih =>
        rw [List.replicate_succ]
        have : digitsVal ('0' :: List.replicate n '0') =
            digitsVal ([] ++ '0' :: List.replicate n '0') := by simp
        rw [this]
        simpa [digitsVal, List.foldl_cons, digitVal] using ih
  simp [this]

theorem natToDigitsAux_spec {fuel n : ℕ} (h : n < fuel) :
    digitsVal (natToDigitsAux fuel n) = n ∧
      (∀ c ∈ natToDigitsAux fuel n, is_digit c = true) ∧
      natToDigitsAux fuel n ≠ [] := by
  induction fuel generalizing n with
  | zero => omega
  | succ fuel ih =>
      by_cases hn : n < 10
      · refine ⟨?_, ?_, ?_⟩
        · simp only [natToDigitsAux, hn, if_true, digitsVal, List.foldl_cons,
            List.foldl_nil, Nat.mul_zero, Nat.zero_add]
          exact digitVal_decDigit hn
        · simp only [natToDigitsAux, hn, if_true, List.mem_singleton]
          rintro c rfl
          exact is_digit_decDigit hn
        · simp [natToDigitsAux, hn]
      · have hlt : n / 10 < fuel := by
          have := Nat.div_lt_self (by omega : 0 < n) (by omega : 1 < 10)
          omega
        obtain ⟨ih1, ih2, ih3⟩ := ih hlt
        refine ⟨?_, ?_, ?_⟩
        · rw [natToDigitsAux]
          simp only [hn, if_false]
          rw [digitsVal_append, ih1]
          have hm : n % 10 < 10 := Nat.mod_lt _ (by omega)
          have : digitsVal [decDigit (n % 10)] = n % 10 := by
            simp [digitsVal, digitVal_decDigit hm]
          rw [this]
          simp
          omega
        · rw [natToDigitsAux]
          simp only [hn, if_false]
          intro c hc
          rcases List.mem_append.mp hc with h1 | h1
          · exact ih2 c h1
          · simp only [List.mem_singleton] at h1
            subst h1
            exact is_digit_decDigit (Nat.mod_lt _ (by omega))
        · rw [natToDigitsAux]
          simp [hn]

theorem digitsVal_natToDigits (n : ℕ) : digitsVal (natToDigits n) = n :=
  (natToDigitsAux_spec (Nat.lt_succ_self n)).1

theorem natToDigits_digits (n : ℕ) : ∀ c ∈ natToDigits n, is_digit c = true :=
  (natToDigitsAux_spec (Nat.lt_succ_self n)).2.1

theorem natToDigits_ne_nil (n : ℕ) : natToDigits n ≠ [] :=
  (natToDigitsAux_spec (Nat.lt_succ_self n)).2.2

theorem natToDigitsAux_length_le {fuel n k : ℕ} (hf : n < fuel) (hk : n < 10 ^ k)
    (hk0 : 0 < k) : (natToDigitsAux fuel n).length ≤ k := by
  induction fuel generalizing n k with
  | zero => omega
  | succ fuel ih =>
      by_cases hn : n < 10
      · simp [natToDigitsAux, hn]
        omega
      · have hlt : n / 10 < fuel := by
          have := Nat.div_lt_self (by omega : 0 < n) (by omega : 1 < 10)
          omega
        rw [natToDigitsAux]
        simp only [hn, if_false, List.length_append, List.length_singleton]
        have hk1 : 1 < k := by
          by_contra hcon
          have : k = 1 := by omega
          subst this
          simp at hk
          omega
        have hdiv : n / 10 < 10 ^ (k - 1) := by
          have h10 : 10 ^ k = 10 ^ (k - 1) * 10 := by
            conv_lhs => rw [show k = (k - 1) + 1 by omega]
            rw [pow_succ]
          apply Nat.div_lt_of_lt_mul
          omega
        have := ih hlt hdiv (by omega)
        omega

theorem natToDigits_length_le {n k : ℕ} (hk : n < 10 ^ k) (hk0 : 0 < k) :
    (natToDigits n).length ≤ k := natToDigitsAux_length_le (Nat.lt_succ_self n) hk hk0

theorem countFacAux_pow_dvd (fuel p n : ℕ) : p ^ countFacAux fuel p n ∣ n := by
  induction fuel generalizing n with
  | zero => simp [countFacAux]
  | succ fuel ih =>
      rw [countFacAux]
      by_cases h : 2 ≤ p ∧ n % p = 0 ∧ n ≠ 0
      · rw [if_pos h, pow_succ]
        have hd : p ∣ n := Nat.dvd_of_mod_eq_zero h.2.1
        have := ih (n / p)
        calc p ^ countFacAux fuel p (n / p) * p ∣ (n / p) * p :=
              mul_dvd_mul_right this p
          _ = n := Nat.div_mul_cancel hd
      · rw [if_neg h]
        simp

theorem countFac_pow_dvd (p n : ℕ) : p ^ countFac p n ∣ n := countFacAux_pow_dvd n p n

theorem den_dvd_pow10 {d : ℕ} (hd : 0 < d)
    (h : d / 2 ^ countFac 2 d / 5 ^ countFac 5 d = 1) :
    d ∣ 10 ^ max (countFac 2 d) (countFac 5 d) := by
  set a := countFac 2 d with ha
  set b := countFac 5 d with hb
  have h2 : 2 ^ a ∣ d := countFac_pow_dvd 2 d
  have h5 : 5 ^ b ∣ d := countFac_pow_dvd 5 d
  have hcop : Nat.Coprime (2 ^ a) (5 ^ b) :=
    Nat.Coprime.pow a b (by decide)
  have h25 : 2 ^ a * 5 ^ b ∣ d := hcop.mul_dvd_of_dvd_of_dvd h2 h5
  have hdd : d / 2 ^ a / 5 ^ b = d / (2 ^ a * 5 ^ b) := by
    rw [Nat.div_div_eq_div_mul]
  rw [hdd] at h
  have hd_eq : d = 2 ^ a * 5 ^ b := by
    have := Nat.div_mul_cancel h25
    rw [h] at this
    omega
  rw [hd_eq]
  have hle : 2 ^ a * 5 ^ b ∣ 2 ^ max a b * 5 ^ max a b := by
    exact Nat.mul_dvd_mul (Nat.pow_dvd_pow 2 (Nat.le_max_left a b))
      (Nat.pow_dvd_pow 5 (Nat.le_max_right a b))
  calc 2 ^ a * 5 ^ b ∣ 2 ^ max a b * 5 ^ max a b := hle
    _ = 10 ^ max a b := by rw [← Nat.mul_pow]

theorem padZeros_length {k : ℕ} {ds : List Char} (h : ds.length ≤ k) :
    (padZeros k ds).length = k := by
  simp [padZeros]
  omega

theorem padZeros_digits {k : ℕ} {ds : List Char} (h : ∀ c ∈ ds, is_digit c = true) :
    ∀ c ∈ padZeros k ds, is_digit c = true := by
  intro c hc
  rcases List.mem_append.mp hc with h1 | h1
  · have := List.eq_of_mem_replicate h1
    subst this
    decide
  · exact h c h1

theorem digitsVal_padZeros (k : ℕ) (ds : List Char) :
    digitsVal (padZeros k ds) = digitsVal ds :=
  digitsVal_replicate_zero _ _

theorem qPosToChars_eval {q : ℚ} (hq : 0 < q) (h : decimalDen q) :
    ∃ ds fs, qPosToChars q = ds ++ fs ∧ (∀ c ∈ ds, is_digit c = true) ∧ ds ≠ [] ∧
      ((fs = [] ∧ mkRat (digitsVal ds) 1 = q) ∨
        (∃ fr, fs = '.' :: fr ∧ fr ≠ [] ∧ (∀ c ∈ fr, is_digit c = true) ∧
          mkRat (digitsVal ds * 10 ^ fr.length + digitsVal fr) (10 ^ fr.length) = q)) := by
  have hden_pos : 0 < q.den := q.den_pos
  have hnum_pos : 0 < q.num := Rat.num_pos.mpr hq
  set a := countFac 2 q.den with ha
  set b := countFac 5 q.den with hb
  set k := max a b with hk
  set m := q.num.natAbs * 10 ^ k / q.den with hm
  have hden_dvd : q.den ∣ 10 ^ k := den_dvd_pow10 hden_pos h
  have hdvd_num : q.den ∣ q.num.natAbs * 10 ^ k := Dvd.dvd.mul_left hden_dvd _
  have hm_mul : m * q.den = q.num.natAbs * 10 ^ k := Nat.div_mul_cancel hdvd_num
  have hm_pos : 0 < m := by
    rcases Nat.eq_zero_or_pos m with h0 | h0
    · rw [h0, Nat.zero_mul] at hm_mul
      have h10 : 0 < 10 ^ k := Nat.pos_pow_of_pos k (by omega)
      have : 0 < q.num.natAbs := Int.natAbs_pos.mpr (by omega)
      nlinarith [hm_mul]
    · exact h0
  -- the cast identity (m : ℚ) = q * 10 ^ k
  have hden_ne : (q.den : ℚ) ≠ 0 := by positivity
  have hcast : (m : ℚ) = q * 10 ^ k := by
    have h1 : ((m * q.den : ℕ) : ℚ) = ((q.num.natAbs * 10 ^ k : ℕ) : ℚ) := by
      exact_mod_cast congrArg (fun n : ℕ => (n : ℚ)) hm_mul
    push_cast at h1
    have hnatAbs : (q.num.natAbs : ℚ) = (q.num : ℚ) := by
      rw [Int.cast_natAbs, abs_of_nonneg (le_of_lt hnum_pos)]
    rw [hnatAbs] at h1
    have hq_eq : (q.num : ℚ) = q * q.den := by
      have h3 := Rat.num_div_den q
      rw [div_eq_iff hden_ne] at h3
      exact h3
    rw [hq_eq] at h1
    apply mul_right_cancel₀ hden_ne
    rw [h1]
    ring
  unfold qPosToChars
  rw [← ha, ← hb]
  rw [if_pos (by exact h)]
  by_cases hk0 : k = 0
  · rw [← hk, if_pos hk0]
    refine ⟨natToDigits m, [], by simp, natToDigits_digits m, natToDigits_ne_nil m, ?_⟩
    left
    refine ⟨rfl, ?_⟩
    rw [Rat.mkRat_one, digitsVal_natToDigits]
    push_cast
    rw [hcast, hk0]
    norm_num
  · rw [← hk, if_neg hk0]
    refine ⟨natToDigits (m / 10 ^ k), '.' :: padZeros k (natToDigits (m % 10 ^ k)),
      by simp, natToDigits_digits _, natToDigits_ne_nil _, ?_⟩
    right
    have hfrlt : m % 10 ^ k < 10 ^ k := Nat.mod_lt _ (Nat.pos_pow_of_pos k (by omega))
    have hlen : (padZeros k (natToDigits (m % 10 ^ k))).length = k :=
      padZeros_length (natToDigits_length_le hfrlt (Nat.pos_of_ne_zero hk0))
    refine ⟨padZeros k (natToDigits (m % 10 ^ k)), rfl, ?_, padZeros_digits (natToDigits_digits _), ?_⟩
    · intro hcon
      rw [padZeros] at hcon
      rcases List.append_eq_nil.mp hcon with ⟨-, h2⟩
      exact natToDigits_ne_nil _ h2
    · rw [hlen, digitsVal_padZeros, digitsVal_natToDigits, digitsVal_natToDigits]
      have hnat : m / 10 ^ k * 10 ^ k + m % 10 ^ k = m := Nat.div_add_mod' m (10 ^ k)
      have hnum_eq : ((m / 10 ^ k : ℕ) : ℤ) * 10 ^ k + ((m % 10 ^ k : ℕ) : ℤ) = (m : ℤ) := by
        exact_mod_cast congrArg (fun n : ℕ => (n : ℤ)) hnat
      rw [hnum_eq, Rat.mkRat_eq_divInt, Rat.divInt_eq_div]
      push_cast
      rw [hcast]
      have h10 : ((10 : ℚ) ^ k) ≠ 0 := by positivity
      field_simp

theorem digit_ne {c c' : Char} (h : is_digit c = true) (h' : is_digit c' = false) :
    c ≠ c' := by
  rintro rfl
  rw [h] at h'
  exact absurd h' (by decide)

theorem digit_prop_iff {c : Char} : ('0' ≤ c ∧ c ≤ '9') ↔ is_digit c = true := by
  simp [is_digit]

theorem takeDigits_stop {rest : List Char}
    (h : rest = [] ∨ ∃ c t, rest = c :: t ∧ is_digit c = false) :
    takeDigits rest = ([], rest) := by
  rcases h with rfl | ⟨c, t, rfl, hc⟩
  · rfl
  · rw [takeDigits, if_neg]
    intro hp
    rw [digit_prop_iff.mp hp] at hc
    exact absurd hc (by decide)

theorem takeDigits_append {ds rest : List Char} (h : ∀ c ∈ ds, is_digit c = true)
    (hstop : rest = [] ∨ ∃ c t, rest = c :: t ∧ is_digit c = false) :
    takeDigits (ds ++ rest) = (ds, rest) := by
  induction ds with
  | nil => simpa using takeDigits_stop hstop
  | cons d t ih =>
      have hd : is_digit d = true := h d (by simp)
      rw [List.cons_append, takeDigits, if_pos (digit_prop_iff.mpr hd)]
      rw [ih fun c hc => h c (by simp [hc])]

theorem splitSign_minus (t : List Char) : splitSign ('-' :: t) = (true, t) := rfl

theorem splitSign_no_sign {s : List Char}
    (h : ∀ c t, s = c :: t → (c ≠ '-' ∧ c ≠ '+')) : splitSign s = (false, s) := by
  cases s with
  | nil => rfl
  | cons c t =>
      obtain ⟨h1, h2⟩ := h c t rfl
      unfold splitSign
      split
      · next t' heq =>
          rw [List.cons.injEq] at heq
          exact absurd heq.1 h1
      · next t' heq =>
          rw [List.cons.injEq] at heq
          exact absurd heq.1 h2
      · rfl

theorem takeDigits_all {ds : List Char} (h : ∀ c ∈ ds, is_digit c = true) :
    takeDigits ds = (ds, []) := by
  simpa using takeDigits_append h (Or.inl rfl)

theorem no_sign_head {ds fs : List Char} (hds : ∀ c ∈ ds, is_digit c = true)
    (hne : ds ≠ []) : ∀ c t, ds ++ fs = c :: t → (c ≠ '-' ∧ c ≠ '+') := by
  intro c t heq
  cases ds with
  | nil => exact absurd rfl hne
  | cons d dt =>
      rw [List.cons_append, List.cons.injEq] at heq
      have hd : is_digit d = true := hds d (by simp)
      constructor
      · rw [← heq.1]; exact digit_ne hd (by decide)
      · rw [← heq.1]; exact digit_ne hd (by decide)

theorem parseFloatQ_unsigned {ds fs : List Char} (hds : ∀ c ∈ ds, is_digit c = true)
    (hne : ds ≠ [])
    (hfs : fs = [] ∨ ∃ fr, fs = '.' :: fr ∧ (∀ c ∈ fr, is_digit c = true)) :
    parseFloatQ (ds ++ fs) =
      some (mkRat (digitsVal ds * 10 ^ (fs.drop 1).length + digitsVal (fs.drop 1))
        (10 ^ (fs.drop 1).length)) := by
  rcases hfs with rfl | ⟨fr, rfl, hfr⟩
  · unfold parseFloatQ
    rw [splitSign_no_sign (no_sign_head hds hne)]
    dsimp only
    rw [List.append_nil, takeDigits_all hds]
    dsimp only
    simp [fracPart, List.isEmpty_iff, hne]
  · unfold parseFloatQ
    rw [splitSign_no_sign (no_sign_head hds hne)]
    dsimp only
    rw [takeDigits_append hds (Or.inr ⟨'.', fr, rfl, by decide⟩)]
    dsimp only
    simp [fracPart, takeDigits_all hfr, List.isEmpty_iff, hne]

theorem parseFloatQ_minus {ds fs : List Char} (hds : ∀ c ∈ ds, is_digit c = true)
    (hne : ds ≠ [])
    (hfs : fs = [] ∨ ∃ fr, fs = '.' :: fr ∧ (∀ c ∈ fr, is_digit c = true)) :
    parseFloatQ ('-' :: (ds ++ fs)) =
      some (-(mkRat (digitsVal ds * 10 ^ (fs.drop 1).length + digitsVal (fs.drop 1))
        (10 ^ (fs.drop 1).length))) := by
  rcases hfs with rfl | ⟨fr, rfl, hfr⟩
  · unfold parseFloatQ
    rw [splitSign_minus]
    dsimp only
    rw [List.append_nil, takeDigits_all hds]
    dsimp only
    simp [fracPart, List.isEmpty_iff, hne]
  · unfold parseFloatQ
    rw [splitSign_minus]
    dsimp only
    rw [takeDigits_append hds (Or.inr ⟨'.', fr, rfl, by decide⟩)]
    dsimp only
    simp [fracPart, takeDigits_all hfr, List.isEmpty_iff, hne]

theorem qPosToChars_parse {q : ℚ} (hq : 0 < q) (h : decimalDen q) :
    ∃ ds fs, qPosToChars q = ds ++ fs ∧ (∀ c ∈ ds, is_digit c = true) ∧ ds ≠ [] ∧
      (fs = [] ∨ ∃ fr, fs = '.' :: fr ∧ (∀ c ∈ fr, is_digit c = true)) ∧
      mkRat (digitsVal ds * 10 ^ (fs.drop 1).length + digitsVal (fs.drop 1))
        (10 ^ (fs.drop 1).length) = q := by
  obtain ⟨ds, fs, hshape, hds, hne, hval⟩ := qPosToChars_eval hq h
  refine ⟨ds, fs, hshape, hds, hne, ?_, ?_⟩
  · rcases hval with ⟨rfl, -⟩ | ⟨fr, rfl, -, hfr, -⟩
    · exact Or.inl rfl
    · exact Or.inr ⟨fr, rfl, hfr⟩
  · rcases hval with ⟨rfl, hmk⟩ | ⟨fr, rfl, hfrne, hfr, hmk⟩
    · have h0 : digitsVal ([] : List Char) = 0 := rfl
      simp only [List.drop_nil, List.length_nil, pow_zero, mul_one, h0, Nat.cast_zero,
        add_zero]
      exact hmk
    · simp only [List.drop_succ_cons, List.drop_zero]
      exact hmk

/-- Printing then reading a finite decimal is the identity. -/
theorem parseFloatQ_qToChars {q : ℚ} (h : decimalDen q) :
    parseFloatQ (qToChars q) = some q := by
  rcases lt_trichotomy q 0 with hneg | hzero | hpos
  · rw [qToChars, if_neg (by exact ne_of_lt hneg), if_pos hneg]
    have hdm : decimalDen (-q) := by
      unfold decimalDen at h ⊢
      rw [Rat.neg_den]
      exact h
    obtain ⟨ds, fs, hshape, hds, hne, hfs, hmk⟩ := qPosToChars_parse (by linarith) hdm
    rw [hshape, parseFloatQ_minus hds hne hfs, hmk]
    rw [neg_neg]
  · subst hzero
    decide
  · rw [qToChars, if_neg (by exact ne_of_gt hpos), if_neg (by exact not_lt.mpr (le_of_lt hpos))]
    obtain ⟨ds, fs, hshape, hds, hne, hfs, hmk⟩ := qPosToChars_parse hpos h
    rw [hshape, parseFloatQ_unsigned hds hne hfs, hmk]

theorem skip_ws_nil (l : ℕ) : skip_ws [] l = ([], l) := rfl

theorem skip_ws_not_ws {c : Char} {t : List Char} {l : ℕ}
    (h : is_whitespace c = false) : skip_ws (c :: t) l = (c :: t, l) := by
  rw [skip_ws, h]
  simp

theorem skip_ws_ws {c : Char} {t : List Char} {l : ℕ}
    (h : is_whitespace c = true) : skip_ws (c :: t) l = skip_ws t (bumpLine c l) := by
  rw [skip_ws, h]
  simp

theorem bumpLine_not_nl {c : Char} {l : ℕ} (h : c ≠ '\n') : bumpLine c l = l := by
  rw [bumpLine, if_neg h]

theorem char_class_ne {f : Char → Bool} {c c' : Char} (h : f c = true)
    (h' : f c' = false) : c ≠ c' := by
  rintro rfl
  rw [h] at h'
  exact absurd h' (by decide)

theorem ws_cases {c : Char} (h : is_whitespace c = true) :
    c = ' ' ∨ c = '\t' ∨ c = '\r' ∨ c = '\n' := by
  have h1 : ((c = ' ' ∨ c = '\t') ∨ c = '\r') ∨ c = '\n' := by
    simpa [is_whitespace] using h
  tauto

theorem ws_false_of_ident {c : Char} (h : is_identifier_char c = true) :
    is_whitespace c = false := by
  cases hw : is_whitespace c
  · rfl
  · rcases ws_cases hw with rfl | rfl | rfl | rfl <;> exact absurd h (by decide)

theorem ws_false_of_digit {c : Char} (h : is_digit c = true) :
    is_whitespace c = false := by
  cases hw : is_whitespace c
  · rfl
  · rcases ws_cases hw with rfl | rfl | rfl | rfl <;> exact absurd h (by decide)

theorem is_alpha_iff {c : Char} :
    is_alpha c = true ↔
      (97 ≤ c.toNat ∧ c.toNat ≤ 122) ∨ (65 ≤ c.toNat ∧ c.toNat ≤ 90) ∨ c = '_' := by
  simp only [is_alpha, Bool.or_eq_true, Bool.and_eq_true, decide_eq_true_eq]
  constructor
  · rintro ((⟨h1, h2⟩ | ⟨h1, h2⟩) | h1)
    · exact Or.inl ⟨h1, h2⟩
    · exact Or.inr (Or.inl ⟨h1, h2⟩)
    · exact Or.inr (Or.inr h1)
  · rintro (⟨h1, h2⟩ | ⟨h1, h2⟩ | h1)
    · exact Or.inl (Or.inl ⟨h1, h2⟩)
    · exact Or.inl (Or.inr ⟨h1, h2⟩)
    · exact Or.inr h1

theorem alpha_not_digit {c : Char} (h : is_alpha c = true) : is_digit c = false := by
  cases hd : is_digit c
  · rfl
  · exfalso
    have hb := is_digit_iff.mp hd
    rcases is_alpha_iff.mp h with ⟨h1, h2⟩ | ⟨h1, h2⟩ | rfl
    · omega
    · omega
    · exact absurd hd (by decide)

theorem identStartB_cases {c : Char} (h : identStartB c = true) :
    is_alpha c = true ∨ c = '/' := by
  simpa [identStartB] using h

theorem identStart_not_digit {c : Char} (h : identStartB c = true) :
    is_digit c = false := by
  rcases identStartB_cases h with ha | rfl
  · exact alpha_not_digit ha
  · rfl

theorem identStart_is_identifier_char {c : Char} (h : identStartB c = true) :
    is_identifier_char c = true := by
  rcases identStartB_cases h with ha | rfl
  · simp [is_identifier_char, is_alnum, ha]
  · rfl

theorem identStart_ne_sign {c : Char} (h : identStartB c = true) :
    c ≠ '-' ∧ c ≠ '+' ∧ c ≠ '.' := by
  refine ⟨?_, ?_, ?_⟩ <;> exact char_class_ne h (by decide)

theorem identStart_not_ws {c : Char} (h : identStartB c = true) :
    is_whitespace c = false :=
  ws_false_of_ident (identStart_is_identifier_char h)

theorem identifier_char_ne {c : Char} (h : is_identifier_char c = true) :
    c ≠ NUL ∧ c ≠ '[' ∧ c ≠ ']' ∧ c ≠ '(' ∧ c ≠ ')' ∧ c ≠ '=' ∧ c ≠ ',' ∧
      c ≠ ';' ∧ c ≠ '#' ∧ c ≠ '"' ∧ c ≠ '\\' ∧ c ≠ '\n' := by
  refine ⟨?_, ?_, ?_, ?_, ?_, ?_, ?_, ?_, ?_, ?_, ?_, ?_⟩ <;>
    exact char_class_ne h (by decide)

theorem digit_char_ne {c : Char} (h : is_digit c = true) :
    c ≠ NUL ∧ c ≠ '[' ∧ c ≠ ']' ∧ c ≠ '(' ∧ c ≠ ')' ∧ c ≠ '=' ∧ c ≠ ',' ∧
      c ≠ ';' ∧ c ≠ '#' ∧ c ≠ '"' ∧ c ≠ '\\' ∧ c ≠ '\n' ∧ c ≠ '.' ∧ c ≠ '-' ∧
      c ≠ '+' := by
  refine ⟨?_, ?_, ?_, ?_, ?_, ?_, ?_, ?_, ?_, ?_, ?_, ?_, ?_, ?_, ?_⟩ <;>
    exact char_class_ne h (by decide)

theorem get_token_ws_cons {c : Char} {t : List Char} {l fuel : ℕ}
    (h : is_whitespace c = true) :
    get_token (fuel + 1) (c :: t) l = get_token (fuel + 1) t (bumpLine c l) := by
  rw [get_token, get_token, skip_ws_ws h]

theorem parse_config_loop_ws {c : Char} {t : List Char} {fuel l : ℕ}
    {values : Doc} {cur : List Char} (h : is_whitespace c = true) :
    parse_config_loop (fuel + 1) values cur (c :: t) l =
      parse_config_loop (fuel + 1) values cur t (bumpLine c l) := by
  rw [parse_config_loop, parse_config_loop, skip_ws_ws h]

theorem get_token_lbrack {t : List Char} {l fuel : ℕ} :
    get_token (fuel + 1) ('[' :: t) l = .ok (⟨.BRACKET_OPEN, .s ['['], l⟩, t, l) := by
  rw [get_token, skip_ws_not_ws (by decide)]
  simp [bumpLine]
  all_goals decide

theorem get_token_rbrack {t : List Char} {l fuel : ℕ} :
    get_token (fuel + 1) (']' :: t) l = .ok (⟨.BRACKET_CLOSE, .s [']'], l⟩, t, l) := by
  rw [get_token, skip_ws_not_ws (by decide)]
  simp [bumpLine]
  all_goals decide

theorem get_token_lparen {t : List Char} {l fuel : ℕ} :
    get_token (fuel + 1) ('(' :: t) l = .ok (⟨.PARENTHESIS_OPEN, .s ['('], l⟩, t, l) := by
  rw [get_token, skip_ws_not_ws (by decide)]
  simp [bumpLine]
  all_goals decide

theorem get_token_rparen {t : List Char} {l fuel : ℕ} :
    get_token (fuel + 1) (')' :: t) l = .ok (⟨.PARENTHESIS_CLOSE, .s [')'], l⟩, t, l) := by
  rw [get_token, skip_ws_not_ws (by decide)]
  simp [bumpLine]
  all_goals decide

theorem get_token_equal {t : List Char} {l fuel : ℕ} :
    get_token (fuel + 1) ('=' :: t) l = .ok (⟨.EQUAL, .s ['='], l⟩, t, l) := by
  rw [get_token, skip_ws_not_ws (by decide)]
  simp [bumpLine]
  all_goals decide

theorem get_token_comma {t : List Char} {l fuel : ℕ} :
    get_token (fuel + 1) (',' :: t) l = .ok (⟨.COMMA, .s [','], l⟩, t, l) := by
  rw [get_token, skip_ws_not_ws (by decide)]
  simp [bumpLine]
  all_goals decide

theorem get_token_eof {l fuel : ℕ} :
    get_token (fuel + 1) [] l = .ok (⟨.EOF, .s [], l⟩, [], l) := by
  rw [get_token, skip_ws_nil]

theorem lex_ident_loop_append {s : List Char} (hall : ∀ c ∈ s, is_identifier_char c = true) :
    ∀ {t : List Char} {l : ℕ} {acc : List Char}, headNotB is_identifier_char t →
      lex_ident_loop (s ++ t) l acc = (acc ++ s, t, l) := by
  induction s with
  | nil =>
      intro t l acc ht
      cases t with
      | nil => simp [lex_ident_loop]
      | cons c r =>
          rw [List.nil_append, lex_ident_loop, ht c r rfl]
          simp
  | cons d s' ih =>
      intro t l acc ht
      have hd := hall d (by simp)
      rw [List.cons_append, lex_ident_loop, hd]
      simp only [if_true]
      have hnl : bumpLine d l = l := by
        rw [bumpLine, if_neg (char_class_ne hd (by decide))]
      rw [hnl, ih (fun c hc => hall c (by simp [hc])) ht]
      simp

/-- Lexing an identifier-shaped fragment: one `BOOLEAN`/`IDENTIFIER`
token. -/
theorem get_token_identCore {s t : List Char} {l fuel : ℕ}
    (hs : identShapedB s = true) (ht : headNotB is_identifier_char t) :
    get_token (fuel + 1) (s ++ t) l =
      (if s = "true".toList then .ok (⟨.BOOLEAN, .b true, l⟩, t, l)
       else if s = "false".toList then .ok (⟨.BOOLEAN, .b false, l⟩, t, l)
       else .ok (⟨.IDENTIFIER, .s s, l⟩, t, l)) := by
  cases s with
  | nil => exact absurd hs (by decide)
  | cons c s' =>
      simp only [identShapedB, Bool.and_eq_true, List.all_eq_true, decide_eq_true_eq] at hs
      obtain ⟨hstart, hall⟩ := hs
      have hcid : is_identifier_char c = true := identStart_is_identifier_char hstart
      obtain ⟨hnul, hlb, hrb, hlp, hrp, heq, hcm, hsc, hhs, hq, hbs, hnl⟩ :=
        identifier_char_ne hcid
      rw [List.cons_append, get_token, skip_ws_not_ws (ws_false_of_ident hcid)]
      dsimp only
      rw [if_neg hnul, if_neg hlb, if_neg hrb, if_neg hlp, if_neg hrp, if_neg heq,
        if_neg hcm, if_neg (by simp [hsc, hhs]), if_neg hq]
      have hnum : (is_digit c || (c = '-' && is_digit (match s' ++ t with
          | [] => NUL | p :: _ => p)) || (c = '+' && is_digit (match s' ++ t with
          | [] => NUL | p :: _ => p)) || (c = '.' && is_digit (match s' ++ t with
          | [] => NUL | p :: _ => p))) = false := by
        obtain ⟨h1, h2, h3⟩ := identStart_ne_sign hstart
        rw [identStart_not_digit hstart]
        simp [h1, h2, h3]
      rw [if_neg (by rw [hnum]; exact Bool.false_ne_true)]
      have hstart' : (is_alpha c || c = '/') = true := by
        rcases identStartB_cases hstart with ha | rfl
        · simp [ha]
        · simp
      rw [if_pos hstart']
      have hbump : bumpLine c l = l := by rw [bumpLine, if_neg hnl]
      rw [hbump, lex_ident_loop_append (fun c' hc' => hall c' (by simp [hc'])) ht]
      simp

theorem lex_string_step {c : Char} {rest : List Char} {l openLine : ℕ}
    {str : List Char} {escaped : Bool} :
    lex_string openLine (c :: rest) l str escaped =
      (if c = NUL then .error ⟨"Unterminated string", openLine⟩
       else if escaped then
         lex_string openLine rest (bumpLine c l) (str ++ [unescape_char c]) false
       else if c = '\\' then lex_string openLine rest (bumpLine c l) str true
       else if c = '"' then
         match rest with
         | [] => .ok (⟨.STRING, .s str, openLine⟩, rest, bumpLine c l)
         | peek :: _ =>
             if peek = NUL ∨ peek = '\n' ∨ peek = '\r' ∨ peek = ' ' ∨
                 peek = '\t' ∨ peek = ';' ∨ peek = '#' then
               .ok (⟨.STRING, .s str, openLine⟩, rest, bumpLine c l)
             else
               .ok (⟨.STRING, .s str, openLine⟩, rest, bumpLine c l)
       else lex_string openLine rest (bumpLine c l) (str ++ [c]) false) := rfl

theorem lex_string_closing_quote {rest : List Char} {l openLine : ℕ} {acc : List Char} :
    lex_string openLine ('"' :: rest) l acc false =
      .ok (⟨.STRING, .s acc, openLine⟩, rest, l) := by
  cases rest with
  | nil =>
      rw [lex_string_step]
      simp [bumpLine, NUL]
  | cons p r =>
      rw [lex_string_step]
      simp only [Bool.false_eq_true, if_false, eq_self_iff_true, if_true, ite_self,
        if_neg (show ¬('"' : Char) = NUL by decide),
        if_neg (show ¬('"' : Char) = '\\' by decide),
        bumpLine_not_nl (show ('"' : Char) ≠ '\n' by decide)]

theorem lex_string_content {s : List Char} (hnul : ∀ c ∈ s, c ≠ NUL) :
    ∀ (t : List Char) (l openLine : ℕ) (acc : List Char), ∃ l',
      lex_string openLine (escape_string s ++ '"' :: t) l acc false =
        .ok (⟨.STRING, .s (acc ++ s), openLine⟩, t, l') := by
  induction s with
  | nil =>
      intro t l openLine acc
      refine ⟨l, ?_⟩
      simp only [escape_string, List.map_nil, List.flatten_nil, List.nil_append,
        List.append_nil]
      exact lex_string_closing_quote
  | cons c s' ih =>
      intro t l openLine acc
      have hc : c ≠ NUL := hnul c (by simp)
      have hnul' : ∀ c ∈ s', c ≠ NUL := fun c hc => hnul c (by simp [hc])
      have hesc : escape_string (c :: s') = escape_char c ++ escape_string s' := by
        simp [escape_string]
      rw [hesc]
      by_cases hbs : c = '\\'
      · subst hbs
        obtain ⟨l', hih⟩ := @ih hnul' t l openLine (acc ++ ['\\'])
        refine ⟨l', ?_⟩
        simp only [show escape_char '\\' = ['\\', '\\'] from rfl, List.cons_append,
          List.nil_append]
        rw [lex_string_step, if_neg (by decide : ¬('\\' : Char) = NUL)]
        simp only [Bool.false_eq_true, if_false, eq_self_iff_true, if_true,
          bumpLine_not_nl (show ('\\' : Char) ≠ '\n' by decide)]
        rw [lex_string_step, if_neg (by decide : ¬('\\' : Char) = NUL)]
        simp only [eq_self_iff_true, if_true,
          bumpLine_not_nl (show ('\\' : Char) ≠ '\n' by decide)]
        rw [show unescape_char '\\' = '\\' from rfl, hih]
        simp
      · by_cases hq : c = '"'
        · subst hq
          obtain ⟨l', hih⟩ := @ih hnul' t l openLine (acc ++ ['"'])
          refine ⟨l', ?_⟩
          simp only [show escape_char '"' = ['\\', '"'] from rfl, List.cons_append,
            List.nil_append]
          rw [lex_string_step, if_neg (by decide : ¬('\\' : Char) = NUL)]
          simp only [Bool.false_eq_true, if_false, eq_self_iff_true, if_true,
            bumpLine_not_nl (show ('\\' : Char) ≠ '\n' by decide)]
          rw [lex_string_step, if_neg (by decide : ¬('"' : Char) = NUL)]
          simp only [eq_self_iff_true, if_true,
            bumpLine_not_nl (show ('"' : Char) ≠ '\n' by decide)]
          rw [show unescape_char '"' = '"' from rfl, hih]
          simp
        · obtain ⟨l', hih⟩ := @ih hnul' t (bumpLine c l) openLine (acc ++ [c])
          refine ⟨l', ?_⟩
          rw [show escape_char c = [c] from by rw [escape_char, if_neg hbs, if_neg hq]]
          simp only [List.cons_append, List.nil_append]
          rw [lex_string_step, if_neg hc]
          simp only [Bool.false_eq_true, if_false]
          rw [if_neg hbs, if_neg hq, hih]
          simp

/-- A string body with no closing quote always ends in the
`Unterminated string` error at the opening line. -/
theorem lex_string_unterminated {s : List Char} (hq : '"' ∉ s) :
    ∀ {l openLine : ℕ} {acc : List Char} {esc : Bool},
      lex_string openLine s l acc esc = .error ⟨"Unterminated string", openLine⟩ := by
  induction s with
  | nil => intro l openLine acc esc; rw [lex_string]
  | cons c s' ih =>
      intro l openLine acc esc
      have hcq : c ≠ '"' := by
        intro h
        exact hq (h ▸ List.mem_cons_self c s')
      have hq' : '"' ∉ s' := fun h => hq (List.mem_cons_of_mem c h)
      rw [lex_string_step]
      by_cases hc : c = NUL
      · rw [if_pos hc]
      · rw [if_neg hc]
        cases esc with
        | true =>
            simp only [eq_self_iff_true, if_true]
            exact ih hq'
        | false =>
            simp only [Bool.false_eq_true, if_false]
            by_cases hbs : c = '\\'
            · rw [if_pos hbs]
              exact ih hq'
            · rw [if_neg hbs, if_neg hcq]
              exact ih hq'

/-- A quoted string fragment lexes to one `STRING` token carrying the
unescaped content, whatever follows the closing quote. -/
theorem get_token_string {s t : List Char} {l fuel : ℕ} (hnul : ∀ c ∈ s, c ≠ NUL) :
    ∃ l', get_token (fuel + 1) (('"' :: escape_string s ++ ['"']) ++ t) l =
      .ok (⟨.STRING, .s s, l⟩, t, l') := by
  obtain ⟨l', hih⟩ := lex_string_content hnul t (bumpLine '"' l) l []
  refine ⟨l', ?_⟩
  have hnorm : ('"' :: escape_string s ++ ['"']) ++ t =
      '"' :: (escape_string s ++ '"' :: t) := by simp
  rw [hnorm, get_token, skip_ws_not_ws (show is_whitespace '"' = false from by decide)]
  dsimp only
  rw [if_neg (by decide : ¬('"' : Char) = NUL), if_neg (by decide : ¬('"' : Char) = '['),
    if_neg (by decide : ¬('"' : Char) = ']'), if_neg (by decide : ¬('"' : Char) = '('),
    if_neg (by decide : ¬('"' : Char) = ')'), if_neg (by decide : ¬('"' : Char) = '='),
    if_neg (by decide : ¬('"' : Char) = ','),
    if_neg (by decide : ¬(('"' : Char) = ';' ∨ ('"' : Char) = '#')), if_pos rfl]
  rw [hih]
  simp

theorem lex_number_consume_digits {ds : List Char} (hds : ∀ c ∈ ds, is_digit c = true) :
    ∀ {t : List Char} {l : ℕ} {acc : List Char} {hd : Bool},
      lex_number_loop (ds ++ t) l acc hd = lex_number_loop t l (acc ++ ds) hd := by
  induction ds with
  | nil => intro t l acc hd; simp
  | cons d ds' ih =>
      intro t l acc hd
      have hdd := hds d (by simp)
      rw [List.cons_append, lex_number_loop, hdd]
      simp only [if_true]
      rw [show bumpLine d l = l from by rw [bumpLine, if_neg (char_class_ne hdd (by decide))]]
      rw [ih (fun c hc => hds c (by simp [hc]))]
      simp

theorem lex_number_stop {t : List Char} {l : ℕ} {acc : List Char} {hd : Bool}
    (ht : headNotNum t) : lex_number_loop t l acc hd = (acc, t, l) := by
  cases t with
  | nil => rw [lex_number_loop]
  | cons c r =>
      obtain ⟨h1, h2⟩ := ht c r rfl
      rw [lex_number_loop, h1]
      simp only [Bool.false_eq_true, if_false]
      rw [if_neg h2]

theorem lex_number_dot {t : List Char} {l : ℕ} {acc : List Char} :
    lex_number_loop ('.' :: t) l acc false = lex_number_loop t l (acc ++ ['.']) true := by
  rw [lex_number_loop]
  rw [show is_digit '.' = false from rfl]
  simp only [Bool.false_eq_true, if_false, eq_self_iff_true, if_true,
    bumpLine_not_nl (show ('.' : Char) ≠ '\n' by decide)]

theorem lex_number_body {ds fs rest : List Char} {l : ℕ} {acc : List Char}
    (hds : ∀ c ∈ ds, is_digit c = true)
    (hfs : fs = [] ∨ ∃ fr, fs = '.' :: fr ∧ (∀ c ∈ fr, is_digit c = true))
    (hrest : headNotNum rest) :
    lex_number_loop (ds ++ fs ++ rest) l acc false = (acc ++ (ds ++ fs), rest, l) := by
  rcases hfs with rfl | ⟨fr, rfl, hfr⟩
  · rw [List.append_nil, lex_number_consume_digits hds, lex_number_stop hrest]
  · rw [List.append_assoc, lex_number_consume_digits hds, List.cons_append,
      lex_number_dot, lex_number_consume_digits hfr, lex_number_stop hrest]
    simp

theorem get_token_number_pos {ds fs rest : List Char} {l fuel : ℕ}
    (hds : ∀ c ∈ ds, is_digit c = true) (hne : ds ≠ [])
    (hfs : fs = [] ∨ ∃ fr, fs = '.' :: fr ∧ (∀ c ∈ fr, is_digit c = true))
    (hrest : headNotNum rest) :
    get_token (fuel + 1) ((ds ++ fs) ++ rest) l =
      (match parseFloatQ (ds ++ fs) with
       | none => .error ⟨"Invalid number: " ++ String.mk (ds ++ fs), l⟩
       | some q => .ok (⟨.NUMBER, .n (.finite q), l⟩, rest, l)) := by
  cases ds with
  | nil => exact absurd rfl hne
  | cons d ds' =>
      have hd : is_digit d = true := hds d (by simp)
      obtain ⟨hnul, hlb, hrb, hlp, hrp, heq, hcm, hsc, hhs, hq, hbs, hnl, hdot, hmin,
        hplus⟩ := digit_char_ne hd
      have hnorm : ((d :: ds') ++ fs) ++ rest = d :: (ds' ++ fs ++ rest) := by simp
      rw [hnorm, get_token, skip_ws_not_ws (ws_false_of_digit hd)]
      dsimp only
      rw [if_neg hnul, if_neg hlb, if_neg hrb, if_neg hlp, if_neg hrp, if_neg heq,
        if_neg hcm, if_neg (by simp [hsc, hhs]), if_neg hq]
      rw [if_pos (show (is_digit d || _ || _ || _) = true from by simp [hd])]
      rw [show (decide (d = '.')) = false from decide_eq_false hdot]
      have hds' : ∀ c ∈ ds', is_digit c = true := fun c hc => hds c (by simp [hc])
      rw [bumpLine_not_nl hnl, lex_number_body hds' hfs hrest]
      dsimp only
      rw [show [d] ++ (ds' ++ fs) = (d :: ds') ++ fs from by simp]

theorem get_token_number_neg {ds fs rest : List Char} {l fuel : ℕ}
    (hds : ∀ c ∈ ds, is_digit c = true) (hne : ds ≠ [])
    (hfs : fs = [] ∨ ∃ fr, fs = '.' :: fr ∧ (∀ c ∈ fr, is_digit c = true))
    (hrest : headNotNum rest) :
    get_token (fuel + 1) (('-' :: (ds ++ fs)) ++ rest) l =
      (match parseFloatQ ('-' :: (ds ++ fs)) with
       | none => .error ⟨"Invalid number: " ++ String.mk ('-' :: (ds ++ fs)), l⟩
       | some q => .ok (⟨.NUMBER, .n (.finite q), l⟩, rest, l)) := by
  cases ds with
  | nil => exact absurd rfl hne
  | cons d ds' =>
      have hd : is_digit d = true := hds d (by simp)
      have hnorm : ('-' :: ((d :: ds') ++ fs)) ++ rest = '-' :: d :: (ds' ++ fs ++ rest) := by
        simp
      rw [hnorm, get_token, skip_ws_not_ws (by decide)]
      dsimp only
      rw [if_neg (by decide : ¬('-' : Char) = NUL), if_neg (by decide : ¬('-' : Char) = '['),
        if_neg (by decide : ¬('-' : Char) = ']'), if_neg (by decide : ¬('-' : Char) = '('),
        if_neg (by decide : ¬('-' : Char) = ')'), if_neg (by decide : ¬('-' : Char) = '='),
        if_neg (by decide : ¬('-' : Char) = ','),
        if_neg (by decide : ¬(('-' : Char) = ';' ∨ ('-' : Char) = '#')),
        if_neg (by decide : ¬('-' : Char) = '"')]
      rw [if_pos (show (is_digit '-' || _ || _ || _) = true from by
        simp only [show is_digit '-' = false from rfl, hd, Bool.false_or]
        simp)]
      rw [show (decide (('-' : Char) = '.')) = false from by decide]
      rw [bumpLine_not_nl (by decide)]
      have hstep : lex_number_loop (d :: (ds' ++ fs ++ rest)) l ['-'] false =
          (['-'] ++ ((d :: ds') ++ fs), rest, l) := by
        rw [show d :: (ds' ++ fs ++ rest) = (d :: ds') ++ fs ++ rest from by simp,
          lex_number_body hds hfs hrest]
      rw [hstep]
      dsimp only
      rw [show ['-'] ++ ((d :: ds') ++ fs) = '-' :: ((d :: ds') ++ fs) from by simp]

/-- A printed finite decimal lexes to one `NUMBER` token carrying the
value itself. -/
theorem get_token_number {q : ℚ} {rest : List Char} {l fuel : ℕ}
    (hdec : decimalDen q) (hrest : headNotNum rest) :
    get_token (fuel + 1) (qToChars q ++ rest) l =
      .ok (⟨.NUMBER, .n (.finite q), l⟩, rest, l) := by
  rcases lt_trichotomy q 0 with hneg | hzero | hpos
  · rw [qToChars, if_neg (ne_of_lt hneg), if_pos hneg]
    have hdm : decimalDen (-q) := by
      unfold decimalDen at hdec ⊢
      rw [Rat.neg_den]
      exact hdec
    obtain ⟨ds, fs, hshape, hds, hne, hfs, hmk⟩ := qPosToChars_parse (by linarith) hdm
    rw [hshape]
    rw [get_token_number_neg hds hne hfs hrest, parseFloatQ_minus hds hne hfs, hmk, neg_neg]
  · subst hzero
    rw [show qToChars 0 = ['0'] from rfl]
    have h1 : (['0'] : List Char) ++ rest = ((['0'] ++ []) ++ rest : List Char) := by simp
    rw [h1, get_token_number_pos (by decide) (by decide) (Or.inl rfl) hrest]
    rfl
  · rw [qToChars, if_neg (ne_of_gt hpos), if_neg (not_lt.mpr (le_of_lt hpos))]
    obtain ⟨ds, fs, hshape, hds, hne, hfs, hmk⟩ := qPosToChars_parse hpos hdec
    rw [hshape, List.append_assoc]
    rw [show ds ++ (fs ++ rest) = (ds ++ fs) ++ rest from by simp]
    rw [get_token_number_pos hds hne hfs hrest, parseFloatQ_unsigned hds hne hfs, hmk]

theorem headNotNum_of_ident {t : List Char} (h : headNotB is_identifier_char t) :
    headNotNum t := by
  intro c r hcr
  have h1 := h c r hcr
  constructor
  · cases hd : is_digit c
    · rfl
    · exfalso
      have : is_identifier_char c = true := by simp [is_identifier_char, is_alnum, hd]
      rw [this] at h1
      exact absurd h1 (by decide)
  · rintro rfl
    exact absurd h1 (by decide)

theorem get_token_ctor_arg {x : JNum} {rest : List Char} {l fuel : ℕ}
    (hx : goodCtorArg x) (hrest : headNotB is_identifier_char rest) :
    ∃ tok, get_token (fuel + 1) (renderCtorArg x ++ rest) l = .ok (tok, rest, l) ∧
      parse_construct_one tok = .ok x ∧ ¬tok.type = .PARENTHESIS_CLOSE := by
  cases x with
  | finite q =>
      exact ⟨⟨.NUMBER, .n (.finite q), l⟩,
        get_token_number hx (headNotNum_of_ident hrest), rfl, fun hcon => by cases hcon⟩
  | inf =>
      refine ⟨⟨.IDENTIFIER, .s "inf".toList, l⟩, ?_, rfl, fun hcon => by cases hcon⟩
      rw [show renderCtorArg .inf = "inf".toList from rfl,
        get_token_identCore (by decide) hrest]
      rfl
  | ninf => exact absurd hx (by simp [goodCtorArg])
  | nan =>
      refine ⟨⟨.IDENTIFIER, .s "nan".toList, l⟩, ?_, rfl, fun hcon => by cases hcon⟩
      rw [show renderCtorArg .nan = "nan".toList from rfl,
        get_token_identCore (by decide) hrest]
      rfl

theorem ctor_loop_step_true {fuel : ℕ} {args : List JNum} {cs : List Char} {l : ℕ} :
    parse_construct_args_loop (fuel + 1) true args cs l =
      (match get_token (fuel + 1) cs l with
       | .error e => .error e
       | .ok (tok, cs1, l1) =>
           if tok.type = .PARENTHESIS_CLOSE then .ok (args, cs1, l1)
           else
             match parse_construct_one tok with
             | .error e => .error e
             | .ok jn => parse_construct_args_loop fuel false (args ++ [jn]) cs1 l1) := rfl

theorem ctor_loop_step_false {fuel : ℕ} {args : List JNum} {cs : List Char} {l : ℕ} :
    parse_construct_args_loop (fuel + 1) false args cs l =
      (match get_token (fuel + 1) cs l with
       | .error e => .error e
       | .ok (sep, cs1, l1) =>
           if sep.type = .COMMA then
             match get_token (fuel + 1) cs1 l1 with
             | .error e => .error e
             | .ok (tok, cs2, l2) =>
                 match parse_construct_one tok with
                 | .error e => .error e
                 | .ok jn => parse_construct_args_loop fuel false (args ++ [jn]) cs2 l2
           else if sep.type = .PARENTHESIS_CLOSE then .ok (args, cs1, l1)
           else .error ⟨"Expected ',' or ')' in constructor", sep.line⟩) := rfl

theorem ctorTail_head_not_ident {xs : List JNum} {rest : List Char} :
    headNotB is_identifier_char (ctorTailText xs ++ ')' :: rest) := by
  intro c r hcr
  cases xs with
  | nil =>
      simp only [ctorTailText, List.map_nil, List.flatten_nil, List.nil_append,
        List.cons.injEq] at hcr
      rw [← hcr.1]
      rfl
  | cons x xs' =>
      simp only [ctorTailText, List.map_cons, List.flatten_cons, List.cons_append,
        List.cons.injEq] at hcr
      rw [← hcr.1]
      rfl

theorem ctor_loop_tail {xs : List JNum} (hxs : ∀ x ∈ xs, goodCtorArg x) :
    ∀ {fuel : ℕ} {args : List JNum} {rest : List Char} {l : ℕ}, xs.length < fuel →
      parse_construct_args_loop fuel false args (ctorTailText xs ++ ')' :: rest) l =
        .ok (args ++ xs, rest, l) := by
  induction xs with
  | nil =>
      intro fuel args rest l hfuel
      cases fuel with
      | zero => omega
      | succ f =>
          rw [show ctorTailText [] ++ ')' :: rest = ')' :: rest from by
            simp [ctorTailText]]
          rw [ctor_loop_step_false, get_token_rparen]
          dsimp only
          rw [if_neg (by decide), if_pos rfl]
          simp
  | cons x xs' ih =>
      intro fuel args rest l hfuel
      cases fuel with
      | zero => omega
      | succ f =>
          have hx : goodCtorArg x := hxs x (by simp)
          have hxs' : ∀ y ∈ xs', goodCtorArg y := fun y hy => hxs y (by simp [hy])
          have hnorm : ctorTailText (x :: xs') ++ ')' :: rest =
              ',' :: ' ' :: (renderCtorArg x ++ (ctorTailText xs' ++ ')' :: rest)) := by
            simp [ctorTailText]
          rw [hnorm, ctor_loop_step_false, get_token_comma]
          dsimp only
          rw [if_pos rfl, get_token_ws_cons (by decide),
            bumpLine_not_nl (by decide : (' ' : Char) ≠ '\n')]
          obtain ⟨tok, htok, hone, -⟩ := get_token_ctor_arg hx
            (@ctorTail_head_not_ident xs' _)
          rw [htok]
          dsimp only
          rw [hone]
          dsimp only
          rw [ih hxs' (by simp at hfuel; omega)]
          simp

/-- `parse_construct_args` on a fully rendered argument list returns the
arguments in order. -/
theorem parse_construct_args_printed {xs : List JNum} {rest : List Char} {l fuel : ℕ}
    (hxs : ∀ x ∈ xs, goodCtorArg x) (hfuel : xs.length + 1 < fuel) :
    parse_construct_args fuel ('(' :: (ctorArgsText xs ++ ')' :: rest)) l =
      .ok (xs, rest, l) := by
  cases fuel with
  | zero => omega
  | succ f =>
      rw [parse_construct_args, get_token_lparen]
      dsimp only
      rw [if_pos rfl]
      cases xs with
      | nil =>
          rw [show ctorArgsText [] ++ ')' :: rest = ')' :: rest from by
            simp [ctorArgsText]]
          rw [ctor_loop_step_true, get_token_rparen]
          dsimp only
          rw [if_pos rfl]
      | cons x xs' =>
          have hx : goodCtorArg x := hxs x (by simp)
          have hxs' : ∀ y ∈ xs', goodCtorArg y := fun y hy => hxs y (by simp [hy])
          have hnorm : ctorArgsText (x :: xs') ++ ')' :: rest =
              renderCtorArg x ++ (ctorTailText xs' ++ ')' :: rest) := by
            simp [ctorArgsText]
          rw [hnorm, ctor_loop_step_true]
          obtain ⟨tok, htok, hone, hnotclose⟩ := get_token_ctor_arg hx
            (@ctorTail_head_not_ident xs' _)
          rw [htok]
          dsimp only
          rw [if_neg hnotclose, hone]
          dsimp only
          rw [ctor_loop_tail hxs' (by simp at hfuel; omega)]
          simp

theorem get_token_identifier {name t : List Char} {l fuel : ℕ}
    (hs : identShapedB name = true) (ht : headNotB is_identifier_char t)
    (h1 : name ≠ "true".toList) (h2 : name ≠ "false".toList) :
    get_token (fuel + 1) (name ++ t) l = .ok (⟨.IDENTIFIER, .s name, l⟩, t, l) := by
  rw [get_token_identCore hs ht, if_neg h1, if_neg h2]

theorem headNotB_cons {f : Char → Bool} {c : Char} {r : List Char} (h : f c = false) :
    headNotB f (c :: r) := by
  intro c' r' hcr
  rw [List.cons.injEq] at hcr
  rw [← hcr.1]
  exact h

theorem goodNum_finite {n : JNum} (h : goodNum n) :
    ∃ q, n = .finite q ∧ decimalDen q ∧ plainRange q := by
  cases n with
  | finite q => exact ⟨q, rfl, h⟩
  | nan => exact h.elim
  | inf => exact h.elim
  | ninf => exact h.elim

/-- Parsing a serialized good value: `parse_value` returns the value
itself and consumes exactly its text. -/
theorem parse_value_good {v : JValue} {rest : List Char} {l fuel : ℕ}
    (hv : goodValue v) (hstop : headNotB is_identifier_char rest)
    (hfuel : (serialize_value v).length < fuel) :
    ∃ l', parse_value fuel (serialize_value v ++ rest) l = .ok (v, rest, l') := by
  obtain ⟨f, rfl⟩ : ∃ f, fuel = f + 1 := ⟨fuel - 1, by omega⟩
  cases v with
  | null => exact hv.elim
  | bool b =>
      refine ⟨l, ?_⟩
      cases b
      · rw [show serialize_value (.bool false) = "false".toList from rfl, parse_value,
          get_token_identCore (by decide) hstop]
        rfl
      · rw [show serialize_value (.bool true) = "true".toList from rfl, parse_value,
          get_token_identCore (by decide) hstop]
        rfl
  | num n =>
      obtain ⟨q, rfl, hdec, -⟩ := goodNum_finite hv
      refine ⟨l, ?_⟩
      rw [show serialize_value (.num (.finite q)) = qToChars q from rfl, parse_value,
        get_token_number hdec (headNotNum_of_ident hstop)]
      rfl
  | str s =>
      have hnul : ∀ c ∈ s, c ≠ NUL := fun c hc hceq => hv (hceq ▸ hc)
      obtain ⟨l', hstr⟩ := @get_token_string s rest l f hnul
      refine ⟨l', ?_⟩
      rw [show serialize_value (.str s) = '"' :: escape_string s ++ ['"'] from rfl,
        parse_value, hstr]
      rfl
  | color r g b a =>
      obtain ⟨qr, rfl, hdr, -⟩ := goodNum_finite hv.1
      obtain ⟨qg, rfl, hdg, -⟩ := goodNum_finite hv.2.1
      obtain ⟨qb, rfl, hdb, -⟩ := goodNum_finite hv.2.2.1
      obtain ⟨qa, rfl, hda, -⟩ := goodNum_finite hv.2.2.2
      have hnorm : serialize_value
            (.color (.finite qr) (.finite qg) (.finite qb) (.finite qa)) ++ rest =
          "Color".toList ++ ('(' ::
            (ctorArgsText [.finite qr, .finite qg, .finite qb, .finite qa] ++
              ')' :: rest)) := by
        simp [serialize_value, jsNumToString, ctorArgsText, ctorTailText, renderCtorArg,
          show ("Color(".toList : List Char) = "Color".toList ++ ['('] from rfl,
          show ((", ").toList : List Char) = [',', ' '] from rfl]
      have hall : ∀ x ∈ ([.finite qr, .finite qg, .finite qb, .finite qa] : List JNum),
          goodCtorArg x := by
        intro x hx
        simp only [List.mem_cons, List.not_mem_nil, or_false] at hx
        rcases hx with rfl | rfl | rfl | rfl
        · exact hdr
        · exact hdg
        · exact hdb
        · exact hda
      refine ⟨l, ?_⟩
      have hlen : 13 ≤ (serialize_value
          (JValue.color (.finite qr) (.finite qg) (.finite qb) (.finite qa))).length := by
        simp [serialize_value, jsNumToString]
        omega
      rw [hnorm, parse_value,
        get_token_identifier (by decide) (headNotB_cons (by decide)) (by decide)
          (by decide)]
      dsimp only [tokValStr]
      rw [if_pos rfl, parse_construct_args_printed hall (by simp; omega)]
  | vec2 x y =>
      obtain ⟨qx, rfl, hdx, -⟩ := goodNum_finite hv.1
      obtain ⟨qy, rfl, hdy, -⟩ := goodNum_finite hv.2
      have hnorm : serialize_value (.vec2 (.finite qx) (.finite qy)) ++ rest =
          "Vector2".toList ++ ('(' ::
            (ctorArgsText [.finite qx, .finite qy] ++ ')' :: rest)) := by
        simp [serialize_value, jsNumToString, ctorArgsText, ctorTailText, renderCtorArg,
          show ("Vector2(".toList : List Char) = "Vector2".toList ++ ['('] from rfl,
          show ((", ").toList : List Char) = [',', ' '] from rfl]
      have hall : ∀ x' ∈ ([.finite qx, .finite qy] : List JNum), goodCtorArg x' := by
        intro x' hx'
        simp only [List.mem_cons, List.not_mem_nil, or_false] at hx'
        rcases hx' with rfl | rfl
        · exact hdx
        · exact hdy
      refine ⟨l, ?_⟩
      have hlen : 11 ≤ (serialize_value (JValue.vec2 (.finite qx) (.finite qy))).length := by
        simp [serialize_value, jsNumToString]
        omega
      rw [hnorm, parse_value,
        get_token_identifier (by decide) (headNotB_cons (by decide)) (by decide)
          (by decide)]
      dsimp only [tokValStr]
      rw [if_neg (by decide : ¬("Vector2".toList = "Color".toList)), if_pos rfl,
        parse_construct_args_printed hall (by simp; omega)]

theorem mapHas_eq_false {κ α : Type} [DecidableEq κ] {m : List (κ × α)} {k : κ}
    (h : k ∉ m.map Prod.fst) : mapHas m k = false := by
  cases hm : mapHas m k
  · rfl
  · exact absurd (mapHas_iff.mp hm) h

theorem docSet_create {prev : Doc} {sec k : List Char} {v : JValue}
    (h : sec ∉ prev.map Prod.fst) :
    docSet prev sec k v = prev ++ [(sec, [(k, v)])] := by
  rw [docSet]
  rw [mapHas_eq_false h]
  simp only [Bool.false_eq_true, if_false]
  rw [mapSet_append_of_not_mem [] h]
  rw [mapGetD, mapGet?_inplace [] [] h]
  dsimp only [Option.getD]
  rw [show mapSet ([] : SectionMap) k v = [(k, v)] from rfl, mapSet_inplace [] [(k, v)] h]

theorem docSet_extend {prev : Doc} {sec : List Char} {acc : SectionMap}
    {k : List Char} {v : JValue}
    (hsec : sec ∉ prev.map Prod.fst) (hk : k ∉ acc.map Prod.fst) :
    docSet (prev ++ [(sec, acc)]) sec k v = prev ++ [(sec, acc ++ [(k, v)])] := by
  rw [docSet]
  have h1 : mapHas (prev ++ [(sec, acc)]) sec = true := by
    rw [mapHas_append_iff]
    simp [mapHas]
  rw [h1]
  simp only [eq_self_iff_true, if_true]
  rw [mapGetD, mapGet?_inplace acc [] hsec]
  dsimp only [Option.getD]
  rw [mapSet_append_of_not_mem v hk, mapSet_inplace [] (acc ++ [(k, v)]) hsec]

theorem parse_config_loop_ws_all {c : Char} {t : List Char} {fuel l : ℕ}
    {values : Doc} {cur : List Char} (h : is_whitespace c = true) :
    parse_config_loop fuel values cur (c :: t) l =
      parse_config_loop fuel values cur t (bumpLine c l) := by
  cases fuel with
  | zero => rfl
  | succ f => exact parse_config_loop_ws h

/-- One `key=value` line advances the loop by one step, storing the pair. -/
theorem parse_key_step {k : List Char} {v : JValue} {values : Doc}
    {sec tail : List Char} {l fuel : ℕ}
    (hk : goodKey k) (hv : goodValue v)
    (hfv : (serialize_value v).length < fuel + 1) :
    ∃ l', parse_config_loop (fuel + 1) values sec (kvLine (k, v) ++ tail) l =
      parse_config_loop fuel (docSet values sec k v) sec tail l' := by
  cases hq : needs_quotes k with
  | true =>
      have hnul : ∀ c ∈ k, c ≠ NUL := fun c hc hceq => hk.1 (hceq ▸ hc)
      obtain ⟨l₁, htok⟩ :=
        @get_token_string k ('=' :: (serialize_value v ++ '\n' :: tail)) l fuel hnul
      obtain ⟨l₃, hpv⟩ := @parse_value_good v ('\n' :: tail) l₁ (fuel + 1) hv
        (headNotB_cons (by decide)) hfv
      have hstream : kvLine (k, v) ++ tail =
          ('"' :: escape_string k ++ ['"']) ++
            ('=' :: (serialize_value v ++ '\n' :: tail)) := by
        simp [kvLine, encode_key, hq]
      have hsw : skip_ws (('"' :: escape_string k ++ ['"']) ++
          ('=' :: (serialize_value v ++ '\n' :: tail))) l =
          (('"' :: escape_string k ++ ['"']) ++
            ('=' :: (serialize_value v ++ '\n' :: tail)), l) := by
        rw [List.cons_append]
        exact skip_ws_not_ws (by decide)
      refine ⟨bumpLine '\n' l₃, ?_⟩
      rw [hstream, parse_config_loop, hsw]
      dsimp only
      rw [htok]
      dsimp only [tokValStr]
      rw [get_token_equal]
      dsimp only
      rw [if_pos rfl, hpv]
      dsimp only
      rw [parse_config_loop_ws_all (by decide)]
  | false =>
      obtain ⟨hshape, hnt, hnf⟩ := hk.2 hq
      cases k with
      | nil => exact absurd hshape (by decide)
      | cons c k' =>
          have hstart : identStartB c = true := by
            simp only [identShapedB, Bool.and_eq_true] at hshape
            exact hshape.1
          obtain ⟨l₃, hpv⟩ := @parse_value_good v ('\n' :: tail) l (fuel + 1) hv
            (headNotB_cons (by decide)) hfv
          have htok := @get_token_identifier (c :: k')
            ('=' :: (serialize_value v ++ '\n' :: tail)) l fuel hshape
            (headNotB_cons (by decide)) hnt hnf
          have hstream : kvLine (c :: k', v) ++ tail =
              (c :: k') ++ ('=' :: (serialize_value v ++ '\n' :: tail)) := by
            simp [kvLine, encode_key, hq]
          have hsw : skip_ws ((c :: k') ++
              ('=' :: (serialize_value v ++ '\n' :: tail))) l =
              ((c :: k') ++ ('=' :: (serialize_value v ++ '\n' :: tail)), l) := by
            rw [List.cons_append]
            exact skip_ws_not_ws (ws_false_of_ident (identStart_is_identifier_char hstart))
          refine ⟨bumpLine '\n' l₃, ?_⟩
          rw [hstream, parse_config_loop, hsw]
          dsimp only
          rw [htok]
          dsimp only [tokValStr]
          rw [get_token_equal]
          dsimp only
          rw [if_pos rfl, hpv]
          dsimp only
          rw [parse_config_loop_ws_all (by decide)]

/-- A run of `key=value` lines extends the in-progress final section,
entry by entry. -/
theorem parse_keys_block {kvs : SectionMap} {prev : Doc} {sec : List Char}
    {acc : SectionMap} {tail : List Char} {l fuel : ℕ}
    (hgood : ∀ kv ∈ kvs, goodKey kv.1 ∧ goodValue kv.2)
    (hnodup : ((acc ++ kvs).map Prod.fst).Nodup)
    (hsec : sec ∉ prev.map Prod.fst)
    (hfv : ∀ kv ∈ kvs, (serialize_value kv.2).length < fuel) :
    ∃ l', parse_config_loop (fuel + kvs.length) (prev ++ [(sec, acc)]) sec
        (kvsText kvs ++ tail) l =
      parse_config_loop fuel (prev ++ [(sec, acc ++ kvs)]) sec tail l' := by
  induction kvs generalizing acc l with
  | nil =>
      refine ⟨l, ?_⟩
      simp [kvsText]
  | cons kv kvs' ih =>
      obtain ⟨k, v⟩ := kv
      have hstream : kvsText ((k, v) :: kvs') ++ tail =
          kvLine (k, v) ++ (kvsText kvs' ++ tail) := by
        simp [kvsText]
      have hcnt : fuel + ((k, v) :: kvs').length = (fuel + kvs'.length) + 1 := by
        simp
        omega
      have hknotacc : k ∉ acc.map Prod.fst := by
        simp only [List.map_append, List.nodup_append] at hnodup
        intro hmem
        exact hnodup.2.2 hmem (by simp only [List.map_cons, List.mem_cons]; exact Or.inl trivial)
      obtain ⟨l₁, hstep⟩ := @parse_key_step k v (prev ++ [(sec, acc)]) sec
        (kvsText kvs' ++ tail) l (fuel + kvs'.length) (hgood (k, v) (by simp)).1
        (hgood (k, v) (by simp)).2
        (by have hh : (serialize_value v).length < fuel := hfv (k, v) (by simp); omega)
      have hds := @docSet_extend prev sec acc k v hsec hknotacc
      have hnodup' : (((acc ++ [(k, v)]) ++ kvs').map Prod.fst).Nodup := by
        rw [List.append_cons] at hnodup
        exact hnodup
      obtain ⟨l', hih⟩ := ih (fun kv hkv => hgood kv (by simp [hkv])) hnodup'
        (fun kv hkv => hfv kv (by simp [hkv]))
      refine ⟨l', ?_⟩
      rw [hstream, hcnt, hstep, hds, hih]
      simp

theorem escape_brackets_id {s : List Char} (h : ∀ c ∈ s, c ≠ ']') :
    escape_brackets s = s := by
  induction s with
  | nil => rfl
  | cons c s' ih =>
      rw [escape_brackets, if_neg (h c (by simp)), ih (fun c' hc' => h c' (by simp [hc']))]
      rfl

theorem unescape_brackets_cons_ne {c : Char} {s' : List Char} (hc : c ≠ '\\') :
    unescape_brackets (c :: s') = c :: unescape_brackets s' := by
  rw [unescape_brackets.eq_def]
  split
  · next rest heq =>
      rw [List.cons.injEq] at heq
      exact absurd heq.1 hc
  · next c' rest _ heq =>
      rw [List.cons.injEq] at heq
      rw [heq.1, heq.2]
  · next _ heq => exact absurd heq (by simp)

theorem unescape_brackets_id {s : List Char} (h : '\\' ∉ s) :
    unescape_brackets s = s := by
  induction s with
  | nil => rfl
  | cons c s' ih =>
      rw [unescape_brackets_cons_ne (fun hceq => h (hceq ▸ List.mem_cons_self c s')),
        ih (fun hm => h (List.mem_cons_of_mem c hm))]

theorem identShaped_all {s : List Char} (h : identShapedB s = true) :
    ∀ c ∈ s, is_identifier_char c = true := by
  cases s with
  | nil => intro c hc; cases hc
  | cons c0 s' =>
      simp only [identShapedB, Bool.and_eq_true, List.all_eq_true, decide_eq_true_eq] at h
      exact h.2

/-- A `[section]` header line (with its blank separator line) runs one
loop step: the section is created empty and becomes current; the following
`key=value` run then fills it. -/
theorem parse_section_block {sec : List Char} {kvs : SectionMap} {prev : Doc}
    {cursec tail : List Char} {l fuel : ℕ}
    (hname : identShapedB sec = true ∧ sec ≠ "true".toList ∧ sec ≠ "false".toList)
    (hkeys : ∀ kv ∈ kvs, goodKey kv.1 ∧ goodValue kv.2)
    (hnodup : (kvs.map Prod.fst).Nodup)
    (hprev : sec ∉ prev.map Prod.fst)
    (hfv : ∀ kv ∈ kvs, (serialize_value kv.2).length < fuel) :
    ∃ l', parse_config_loop ((fuel + kvs.length) + 1) prev cursec
        (('[' :: escape_brackets sec ++ [']', '\n', '\n']) ++ (kvsText kvs ++ tail)) l =
      parse_config_loop fuel (prev ++ [(sec, kvs)]) sec tail l' := by
  have hall : ∀ c ∈ sec, is_identifier_char c = true := identShaped_all hname.1
  have heb : escape_brackets sec = sec :=
    escape_brackets_id (fun c hc => (identifier_char_ne (hall c hc)).2.2.1)
  have hub : unescape_brackets sec = sec :=
    unescape_brackets_id (fun hm => absurd (hall _ hm) (by decide))
  have hstream : ('[' :: escape_brackets sec ++ [']', '\n', '\n']) ++
      (kvsText kvs ++ tail) =
      '[' :: (sec ++ (']' :: ('\n' :: ('\n' :: (kvsText kvs ++ tail))))) := by
    rw [heb]
    simp
  have htok2 := @get_token_identifier sec
    (']' :: ('\n' :: ('\n' :: (kvsText kvs ++ tail)))) l (fuel + kvs.length) hname.1
    (headNotB_cons (by decide)) hname.2.1 hname.2.2
  obtain ⟨l', hkb⟩ := @parse_keys_block kvs prev sec [] tail
    (bumpLine '\n' (bumpLine '\n' l)) fuel hkeys (by simpa using hnodup) hprev hfv
  refine ⟨l', ?_⟩
  rw [hstream, parse_config_loop, skip_ws_not_ws (by decide)]
  dsimp only
  rw [get_token_lbrack]
  dsimp only
  rw [htok2]
  dsimp only
  rw [if_pos (Or.inl rfl)]
  rw [get_token_rbrack]
  dsimp only
  rw [if_pos rfl]
  dsimp only [tokValStr]
  rw [hub, mapHas_eq_false hprev]
  simp only [Bool.false_eq_true, if_false]
  rw [mapSet_append_of_not_mem [] hprev]
  rw [parse_config_loop_ws_all (by decide), parse_config_loop_ws_all (by decide)]
  rw [hkb]
  simp

/-- At end of input the loop returns the accumulated document with no
error. -/
theorem parse_config_loop_eof {fuel : ℕ} {values : Doc} {cur : List Char} {l : ℕ} :
    parse_config_loop (fuel + 1) values cur [] l = ⟨values, none⟩ := by
  rw [parse_config_loop, skip_ws_nil]
  dsimp only
  rw [get_token_eof]

/-- Named, pairwise-fresh section blocks append their sections one by
one. -/
theorem parse_blocks {rest : Doc} {prev : Doc} {cursec tail : List Char} {l fuel : ℕ}
    (hgood : ∀ p ∈ rest,
      (identShapedB p.1 = true ∧ p.1 ≠ "true".toList ∧ p.1 ≠ "false".toList) ∧
      (p.2.map Prod.fst).Nodup ∧ ∀ kv ∈ p.2, goodKey kv.1 ∧ goodValue kv.2)
    (hnodup : ((prev ++ rest).map Prod.fst).Nodup)
    (hfv : ∀ p ∈ rest, ∀ kv ∈ p.2, (serialize_value kv.2).length < fuel) :
    ∃ cs' l', parse_config_loop (fuel + blocksFuel rest) prev cursec
        (blocksText rest false ++ tail) l =
      parse_config_loop fuel (prev ++ rest) cs' tail l' := by
  induction rest generalizing prev cursec l with
  | nil =>
      refine ⟨cursec, l, ?_⟩
      simp [blocksText, blocksFuel]
  | cons p rest' ih =>
      obtain ⟨sec, kvs⟩ := p
      have hnamed : sec ≠ [] := by
        intro hsec
        have h1 : identShapedB sec = true := (hgood (sec, kvs) (by simp)).1.1
        rw [hsec] at h1
        exact absurd h1 (by decide)
      have hstream : blocksText ((sec, kvs) :: rest') false ++ tail =
          '\n' :: ((('[' :: escape_brackets sec ++ [']', '\n', '\n']) ++
            (kvsText kvs ++ (blocksText rest' false ++ tail)))) := by
        simp [blocksText, sectionText, hnamed]
      have hcnt : fuel + blocksFuel ((sec, kvs) :: rest') =
          (((fuel + blocksFuel rest') + kvs.length) + 1) := by
        simp [blocksFuel]
        omega
      have hprev : sec ∉ prev.map Prod.fst := by
        simp only [List.map_append, List.nodup_append] at hnodup
        intro hmem
        exact hnodup.2.2 hmem (by simp only [List.map_cons, List.mem_cons]; exact Or.inl trivial)
      obtain ⟨l₁, hsb⟩ := @parse_section_block sec kvs prev cursec
        (blocksText rest' false ++ tail) (bumpLine '\n' l) (fuel + blocksFuel rest')
        (hgood (sec, kvs) (by simp)).1
        (fun kv hkv => (hgood (sec, kvs) (by simp)).2.2 kv hkv)
        (hgood (sec, kvs) (by simp)).2.1 hprev
        (fun kv hkv => by
          have := hfv (sec, kvs) (by simp) kv hkv
          omega)
      have hnodup' : (((prev ++ [(sec, kvs)]) ++ rest').map Prod.fst).Nodup := by
        rw [List.append_cons] at hnodup
        exact hnodup
      obtain ⟨cs', l', hih⟩ := ih
        (fun p hp => hgood p (by simp [hp])) hnodup'
        (fun p hp kv hkv => hfv p (by simp [hp]) kv hkv)
      refine ⟨cs', l', ?_⟩
      rw [hstream, hcnt, parse_config_loop_ws_all (by decide), hsb, hih]
      simp

theorem intercalate_newline (x : List Char) (xs : List (List Char)) :
    List.intercalate ['\n'] (x :: xs) ++ ['\n'] = linesText (x :: xs) := by
  induction xs generalizing x with
  | nil => simp [List.intercalate, linesText]
  | cons y ys ih =>
      simp only [List.intercalate, List.intersperse_cons_cons, List.join] at ih ⊢
      simp only [linesText, List.map_cons, List.flatten_cons] at ih ⊢
      rw [← ih y]
      simp

theorem linesText_serialize_lines (d : Doc) (first : Bool) :
    linesText (serialize_lines d first) = blocksText d first := by
  induction d generalizing first with
  | nil => simp [serialize_lines, blocksText, linesText]
  | cons p rest ih =>
      obtain ⟨sec, kvs⟩ := p
      rw [serialize_lines, blocksText]
      simp only [linesText] at ih
      simp only [linesText, List.map_append, List.flatten_append]
      rw [ih]
      congr 1
      by_cases hsec : sec = []
      · subst hsec
        cases first <;>
        · simp [sectionText, kvsText, List.map_map, Function.comp_def]
          exact congrArg List.flatten
            (List.map_congr_left fun kv _ => by simp [kvLine])
      · cases first <;>
        · simp [sectionText, kvsText, hsec, List.map_map, Function.comp_def]
          exact congrArg List.flatten
            (List.map_congr_left fun kv _ => by simp [kvLine])

/-- The serialized text decomposes into per-section blocks. -/
theorem serialize_config_blocks {sec : List Char} {kvs : SectionMap} {rest : Doc}
    (h : sec ≠ [] ∨ kvs ≠ []) :
    serialize_config ((sec, kvs) :: rest) = blocksText ((sec, kvs) :: rest) true := by
  rw [serialize_config]
  have hne : serialize_lines ((sec, kvs) :: rest) true ≠ [] := by
    rw [serialize_lines]
    rcases h with h | h
    · simp [h]
    · cases kvs with
      | nil => exact absurd rfl h
      | cons kv kvs' => simp
  obtain ⟨x, xs, hxs⟩ : ∃ x xs, serialize_lines ((sec, kvs) :: rest) true = x :: xs := by
    cases hls : serialize_lines ((sec, kvs) :: rest) true with
    | nil => exact absurd hls hne
    | cons x xs => exact ⟨x, xs, rfl⟩
  rw [hxs, intercalate_newline, ← hxs, linesText_serialize_lines]

/-- Every `key=value` line is at least two characters, and contains its
value's text. -/
theorem kvsText_budget (kvs : SectionMap) :
    2 * kvs.length ≤ (kvsText kvs).length ∧
      ∀ kv ∈ kvs, (serialize_value kv.2).length + kvs.length ≤ (kvsText kvs).length := by
  induction kvs with
  | nil => exact ⟨by simp [kvsText], fun kv hkv => absurd hkv (by simp)⟩
  | cons kv0 kvs' ih =>
      have hline : (kvLine kv0).length =
          (encode_key kv0.1).length + (serialize_value kv0.2).length + 2 := by
        simp [kvLine]
        omega
      have htext : (kvsText (kv0 :: kvs')).length =
          (kvLine kv0).length + (kvsText kvs').length := by
        simp [kvsText]
      constructor
      · have h1 := ih.1
        simp only [List.length_cons]
        omega
      · intro kv hkv
        rcases List.mem_cons.mp hkv with rfl | hkv'
        · have h1 := ih.1
          simp only [List.length_cons]
          omega
        · have h2 := ih.2 kv hkv'
          simp only [List.length_cons]
          have hl2 : 2 ≤ (kvLine kv0).length := by omega
          omega

/-- A document's text is longer than the loop fuel it consumes, pointwise
per serialized value. -/
theorem blocks_budget (rest : Doc) :
    blocksFuel rest ≤ (blocksText rest false).length ∧
      ∀ p ∈ rest, ∀ kv ∈ p.2,
        (serialize_value kv.2).length + blocksFuel rest ≤ (blocksText rest false).length := by
  induction rest with
  | nil => exact ⟨by simp [blocksFuel, blocksText], fun p hp => absurd hp (by simp)⟩
  | cons p rest' ih =>
      obtain ⟨sec, kvs⟩ := p
      have hkt := kvsText_budget kvs
      have hst : 1 + (kvsText kvs).length ≤ (sectionText false sec kvs).length := by
        by_cases hsec : sec = []
        · subst hsec
          simp [sectionText]
          omega
        · simp [sectionText, hsec]
          omega
      have htext : (blocksText ((sec, kvs) :: rest') false).length =
          (sectionText false sec kvs).length + (blocksText rest' false).length := by
        simp [blocksText]
      have hfuel : blocksFuel ((sec, kvs) :: rest') =
          kvs.length + 1 + blocksFuel rest' := by
        rw [blocksFuel]
      constructor
      · have h1 := ih.1
        have h2 := hkt.1
        omega
      · intro q hq kv hkv
        rcases List.mem_cons.mp hq with rfl | hq'
        · have h2 := hkt.2 kv hkv
          have h1 := ih.1
          omega
        · have h2 := ih.2 q hq' kv hkv
          have h3 := hkt.1
          omega

/-- Parsing the serialized text of a serializable document returns the
document itself, with no error. -/
theorem parse_serialize_id (d : Doc) (h : Serializable d) :
    parse_config (serialize_config d) = ⟨d, none⟩ := by
  obtain ⟨hnodup, hsecs, htail, hfirst⟩ := h
  cases d with
  | nil => decide
  | cons p rest =>
      obtain ⟨s0, kvs0⟩ := p
      have hrestg : ∀ p ∈ rest, goodSectionName p.1 ∧
          (p.2.map Prod.fst).Nodup ∧ (∀ kv ∈ p.2, goodKey kv.1 ∧ goodValue kv.2) :=
        fun p hp => ⟨htail p (by simp [hp]),
          (hsecs p (by simp [hp])).1, (hsecs p (by simp [hp])).2⟩
      have hbud := blocks_budget rest
      have hkb0 := kvsText_budget kvs0
      by_cases hs0 : s0 = []
      · subst hs0
        have hne0 : kvs0 ≠ [] := by
          have h0 := hfirst ([], kvs0) (by simp)
          simpa using h0
        cases kvs0 with
        | nil => exact absurd rfl hne0
        | cons kv0 kvs0' =>
            obtain ⟨k0, v0⟩ := kv0
            have hsec0 := hsecs ([], (k0, v0) :: kvs0') (by simp)
            have hser : serialize_config (([], (k0, v0) :: kvs0') :: rest) =
                blocksText (([], (k0, v0) :: kvs0') :: rest) true :=
              serialize_config_blocks (Or.inr (by simp))
            have hT : (blocksText (([], (k0, v0) :: kvs0') :: rest) true).length =
                (kvsText ((k0, v0) :: kvs0')).length +
                  (blocksText rest false).length := by
              simp [blocksText, sectionText]
            have hkb0' := hkb0.1
            simp only [List.length_cons] at hkb0'
            obtain ⟨fuel, hfuel⟩ : ∃ fuel,
                (blocksText (([], (k0, v0) :: kvs0') :: rest) true).length + 1 =
                  (((fuel + 1) + blocksFuel rest) + kvs0'.length) + 1 := by
              have h1 := hbud.1
              refine ⟨(blocksText (([], (k0, v0) :: kvs0') :: rest) true).length -
                (1 + blocksFuel rest + kvs0'.length), ?_⟩
              omega
            have hstream : blocksText (([], (k0, v0) :: kvs0') :: rest) true =
                kvLine (k0, v0) ++
                  (kvsText kvs0' ++ (blocksText rest false ++ [])) := by
              simp [blocksText, sectionText, kvsText]
            have hsv0 : (serialize_value v0).length <
                (((fuel + 1) + blocksFuel rest) + kvs0'.length) + 1 := by
              have h2 := hkb0.2 (k0, v0) (by simp)
              simp only [List.length_cons] at h2
              omega
            obtain ⟨l₁, hstep⟩ := @parse_key_step k0 v0 [] []
              (kvsText kvs0' ++ (blocksText rest false ++ [])) 1
              (((fuel + 1) + blocksFuel rest) + kvs0'.length)
              (hsec0.2 (k0, v0) (by simp)).1
              (hsec0.2 (k0, v0) (by simp)).2 hsv0
            have hds : docSet ([] : Doc) [] k0 v0 = [] ++ [([], [(k0, v0)])] :=
              docSet_create (by simp)
            obtain ⟨l₂, hkb⟩ := @parse_keys_block kvs0' [] [] [(k0, v0)]
              (blocksText rest false ++ []) l₁ ((fuel + 1) + blocksFuel rest)
              (fun kv hkv => hsec0.2 kv (by simp [hkv]))
              hsec0.1 (by simp)
              (fun kv hkv => by
                have h2 := hkb0.2 kv (by simp [hkv])
                simp only [List.length_cons] at h2
                have h1 := hbud.1
                omega)
            obtain ⟨cs', l₃, hbl⟩ := @parse_blocks rest
              ([] ++ [([], [(k0, v0)] ++ kvs0')]) [] [] l₂ (fuel + 1)
              (fun p hp => ⟨(hrestg p hp).1, (hrestg p hp).2.1, (hrestg p hp).2.2⟩)
              hnodup
              (fun p hp kv hkv => by
                have h2 := hbud.2 p hp kv hkv
                omega)
            rw [hser, parse_config, hfuel, hstream, hstep, hds, hkb, hbl,
              parse_config_loop_eof]
            simp
      · have hname : goodSectionName s0 := by
          have h0 := hfirst (s0, kvs0) (by simp)
          simpa [hs0] using h0
        have hsec0 := hsecs (s0, kvs0) (by simp)
        have hser : serialize_config ((s0, kvs0) :: rest) =
            blocksText ((s0, kvs0) :: rest) true :=
          serialize_config_blocks (Or.inl hs0)
        have hT : (blocksText ((s0, kvs0) :: rest) true).length =
            ((escape_brackets s0).length + 4 + (kvsText kvs0).length) +
              (blocksText rest false).length := by
          simp [blocksText, sectionText, hs0]
          omega
        obtain ⟨fuel, hfuel⟩ : ∃ fuel,
            (blocksText ((s0, kvs0) :: rest) true).length + 1 =
              ((((fuel + 1) + blocksFuel rest) + kvs0.length) + 1) := by
          have h1 := hbud.1
          have h2 := hkb0.1
          refine ⟨(blocksText ((s0, kvs0) :: rest) true).length -
            (1 + blocksFuel rest + kvs0.length), ?_⟩
          omega
        have hstream : blocksText ((s0, kvs0) :: rest) true =
            ('[' :: escape_brackets s0 ++ [']', '\n', '\n']) ++
              (kvsText kvs0 ++ (blocksText rest false ++ [])) := by
          simp [blocksText, sectionText, hs0]
        obtain ⟨l₁, hsb⟩ := @parse_section_block s0 kvs0 [] [] 
          (blocksText rest false ++ []) 1 ((fuel + 1) + blocksFuel rest)
          hname hsec0.2 hsec0.1 (by simp)
          (fun kv hkv => by
            have h2 := hkb0.2 kv hkv
            have h1 := hbud.1
            omega)
        obtain ⟨cs', l₃, hbl⟩ := @parse_blocks rest ([] ++ [(s0, kvs0)]) s0 [] l₁
          (fuel + 1)
          (fun p hp => ⟨(hrestg p hp).1, (hrestg p hp).2.1, (hrestg p hp).2.2⟩)
          hnodup
          (fun p hp kv hkv => by
            have h2 := hbud.2 p hp kv hkv
            omega)
        rw [hser, parse_config, hfuel, hstream, hsb, hbl, parse_config_loop_eof]
        simp

/-- An opening quote never matched by a closing quote is a lex error at
the opening line. -/
theorem get_token_unterminated {s : List Char} {l fuel : ℕ} (hq : '"' ∉ s) :
    get_token (fuel + 1) ('"' :: s) l = .error ⟨"Unterminated string", l⟩ := by
  rw [get_token, skip_ws_not_ws (by decide)]
  dsimp only
  rw [if_neg (by decide : ¬('"' : Char) = NUL), if_neg (by decide : ¬('"' : Char) = '['),
    if_neg (by decide : ¬('"' : Char) = ']'), if_neg (by decide : ¬('"' : Char) = '('),
    if_neg (by decide : ¬('"' : Char) = ')'), if_neg (by decide : ¬('"' : Char) = '='),
    if_neg (by decide : ¬('"' : Char) = ','),
    if_neg (by decide : ¬(('"' : Char) = ';' ∨ ('"' : Char) = '#')),
    if_pos (rfl : ('"' : Char) = '"')]
  exact lex_string_unterminated hq

theorem parse_config_loop_nls {n : ℕ} {fuel l : ℕ} {values : Doc}
    {cur t : List Char} :
    parse_config_loop fuel values cur (List.replicate n '\n' ++ t) l =
      parse_config_loop fuel values cur t (l + n) := by
  induction n generalizing l with
  | zero => simp
  | succ m ih =>
      rw [List.replicate_succ, List.cons_append,
        parse_config_loop_ws_all (by decide), ih]
      congr 1
      simp [bumpLine]
      omega

theorem mapGet?_mapSet_self {κ α : Type} [DecidableEq κ] {m : List (κ × α)}
    {k : κ} {v : α} : mapGet? (mapSet m k v) k = some v := by
  induction m with
  | nil => simp [mapSet, mapGet?]
  | cons p rest ih =>
      obtain ⟨k', v'⟩ := p
      by_cases hk : k' = k
      · subst hk
        simp [mapSet, mapGet?]
      · simp [mapSet, mapGet?, hk, ih]

theorem mapGet?_mapSet_ne {κ α : Type} [DecidableEq κ] {m : List (κ × α)}
    {k k' : κ} {v : α} (h : k' ≠ k) :
    mapGet? (mapSet m k' v) k = mapGet? m k := by
  induction m with
  | nil => simp [mapSet, mapGet?, h]
  | cons p rest ih =>
      obtain ⟨k0, v0⟩ := p
      by_cases hk0 : k0 = k'
      · subst hk0
        simp [mapSet, mapGet?, h]
      · simp [mapSet, mapGet?, hk0, ih]

theorem mapGet?_mapSet_isSome {κ α : Type} [DecidableEq κ] {m : List (κ × α)}
    {k k' : κ} {v : α} (h : mapGet? m k ≠ none) :
    mapGet? (mapSet m k' v) k ≠ none := by
  by_cases hk : k' = k
  · subst hk
    rw [mapGet?_mapSet_self]
    simp
  · rwa [mapGet?_mapSet_ne hk]

/-- The generic shape of the `buildPresetFields` fold from any
accumulator: presence is preserved, and an uncopied key keeps its
initial value. -/
theorem buildPresetFields_foldl_get {kvs : SectionMap} :
    ∀ {acc : SectionMap} {k : List Char},
      (k ∈ kvs.map Prod.fst → k ≠ "options".toList) →
      (mapGet? acc k ≠ none →
        mapGet? (kvs.foldl
          (fun acc kv =>
            if kv.1 = "options".toList then acc else mapSet acc kv.1 kv.2) acc) k ≠
          none) ∧
      (k ∉ kvs.map Prod.fst →
        mapGet? (kvs.foldl
          (fun acc kv =>
            if kv.1 = "options".toList then acc else mapSet acc kv.1 kv.2) acc) k =
          mapGet? acc k) := by
  induction kvs with
  | nil => exact fun _ => ⟨fun h => h, fun _ => rfl⟩
  | cons kv kvs' ih =>
      intro acc k hk
      obtain ⟨k0, v0⟩ := kv
      rw [List.foldl_cons]
      by_cases hk0 : k0 = "options".toList
      · simp only [hk0, if_pos rfl]
        refine ⟨fun h => (ih ?_).1 h, fun h => (ih ?_).2 ?_⟩
        · exact fun hm => hk (by simp [hm])
        · exact fun hm => hk (by simp [hm])
        · intro hm
          exact h (by simp [hm])
      · simp only [if_neg hk0]
        constructor
        · intro h
          refine (ih (fun hm => hk (by simp [hm]))).1 ?_
          exact mapGet?_mapSet_isSome h
        · intro h
          have hk0k : k0 ≠ k := by
            intro heq
            subst heq
            exact h (by rw [List.map_cons]; exact List.mem_cons_self _ _)
          rw [(ih (fun hm => hk (by simp [hm]))).2 (fun hm => h (by simp [hm])),
            mapGet?_mapSet_ne hk0k]

/-- The `options` key is never copied by `buildPresetFields`. -/
theorem buildPresetFields_options {kvs : SectionMap} :
    ∀ {acc : SectionMap},
      mapGet? acc "options".toList = none →
      mapGet? (kvs.foldl
        (fun acc kv =>
          if kv.1 = "options".toList then acc else mapSet acc kv.1 kv.2) acc)
        "options".toList = none := by
  induction kvs with
  | nil => exact fun h => h
  | cons kv kvs' ih =>
      intro acc h
      obtain ⟨k0, v0⟩ := kv
      rw [List.foldl_cons]
      by_cases hk0 : k0 = "options".toList
      · simp only [hk0, if_pos rfl]
        exact ih h
      · simp only [if_neg hk0]
        refine ih ?_
        rw [mapGet?_mapSet_ne hk0]
        exact h

theorem char_toNat_inj {c d : Char} (h2 : c.toNat = d.toNat) : c = d := by
  cases c with
  | mk cv hc =>
      cases d with
      | mk dv hd =>
          cases cv with
          | mk cf =>
              cases dv with
              | mk df =>
                  cases cf with
                  | ofFin cfin =>
                      cases df with
                      | ofFin dfin =>
                          cases cfin with
                          | mk cn hcn =>
                              cases dfin with
                              | mk dn hdn =>
                                  simp only [Char.toNat, UInt32.toNat] at h2
                                  simp_all

theorem escape_char_length (c : Char) : 1 ≤ (escape_char c).length := by
  rw [escape_char]
  by_cases h1 : c = '\\'
  · simp [h1]
  · rw [if_neg h1]
    by_cases h2 : c = '"'
    · simp [h2]
    · rw [if_neg h2]
      simp

theorem escape_string_length (k : List Char) :
    k.length ≤ (escape_string k).length := by
  induction k with
  | nil => simp [escape_string]
  | cons c k' ih =>
      have h1 := escape_char_length c
      simp only [escape_string, List.map_cons, List.flatten_cons,
        List.length_append, List.length_cons] at ih ⊢
      omega

/-- The character-level reading of `needs_quotes`. -/
theorem needs_quotes_false_iff (k : List Char) :
    needs_quotes k = false ↔
      (k ≠ [] ∧ ∀ c ∈ k, 33 ≤ c.toNat ∧ c.toNat ≤ 126 ∧
        c ≠ '=' ∧ c ≠ '"' ∧ c ≠ ';' ∧ c ≠ '[' ∧ c ≠ ']') := by
  rw [needs_quotes, Bool.or_eq_false_iff]
  constructor
  · rintro ⟨hemp, hany⟩
    refine ⟨by cases k with | nil => exact absurd hemp (by decide) | cons c t => simp, ?_⟩
    intro c hc
    rw [List.any_eq_false] at hany
    have hcf := hany c hc
    simp only [Bool.or_eq_true, decide_eq_true_eq, not_or] at hcf
    obtain ⟨⟨⟨⟨⟨⟨h61, h34⟩, h59⟩, h91⟩, h93⟩, hlt⟩, hgt⟩ := hcf
    refine ⟨by omega, by omega, ?_, ?_, ?_, ?_, ?_⟩ <;>
      exact fun heq => by subst heq; simp_all
  · rintro ⟨hemp, hall⟩
    refine ⟨by cases k with | nil => exact absurd rfl hemp | cons c t => rfl, ?_⟩
    rw [List.any_eq_false]
    intro c hc
    obtain ⟨hge, hle, he, hq, hsc, hlb, hrb⟩ := hall c hc
    simp only [Bool.or_eq_true, decide_eq_true_eq, not_or]
    have hne61 : ¬c.toNat = 61 := fun heq => he (char_toNat_inj heq)
    have hne34 : ¬c.toNat = 34 := fun heq => hq (char_toNat_inj heq)
    have hne59 : ¬c.toNat = 59 := fun heq => hsc (char_toNat_inj heq)
    have hne91 : ¬c.toNat = 91 := fun heq => hlb (char_toNat_inj heq)
    have hne93 : ¬c.toNat = 93 := fun heq => hrb (char_toNat_inj heq)
    exact ⟨⟨⟨⟨⟨⟨hne61, hne34⟩, hne59⟩, hne91⟩, hne93⟩, by omega⟩, by omega⟩

/-- Bare emission happens exactly when `needs_quotes` is false. -/
theorem encode_key_bare_iff (k : List Char) :
    encode_key k = k ↔ needs_quotes k = false := by
  constructor
  · intro h
    cases hnq : needs_quotes k with
    | false => rfl
    | true =>
        exfalso
        rw [encode_key, if_pos hnq] at h
        have hlen := congrArg List.length h
        have hes := escape_string_length k
        simp only [List.length_cons, List.length_append] at hlen
        omega
  · intro h
    rw [encode_key, h]
    simp

/-! ## The claim theorems -/

/-- C1 (amended): for every `Serializable` document — identifier-shaped
distinct section names, NUL-free distinct keys that lex back as one
token, and boolean/finite-decimal-number/NUL-free-string/`Color`/
`Vector2` values — parsing the serialized text yields the document
itself, section for section, key for key, value for value, in order.
(The original claim's `null`, `NaN` and `±Infinity` scalars do not
round-trip; see the counterexample.) -/
theorem C1_roundtrip_serializable (d : Doc) (h : Serializable d) :
    parse_config (serialize_config d) = ⟨d, none⟩ :=
  parse_serialize_id d h

/-- C1 counterexample: a document holding a `null` value serializes to
`k=null`, whose parse fails (`null` is not a known identifier), so the
original for-every-scalar round-trip claim is false. -/
theorem C1_null_not_roundtripped :
    parse_config (serialize_config [([], [("k".toList, JValue.null)])]) ≠
      ⟨[([], [("k".toList, JValue.null)])], none⟩ := by
  decide

/-- C1 witness: `docRT` is `Serializable` and round-trips. -/
theorem C1_roundtrip_serializable_witness :
    Serializable docRT ∧ parse_config (serialize_config docRT) = ⟨docRT, none⟩ :=
  ⟨by decide, C1_roundtrip_serializable docRT (by decide)⟩

/-- C2 (amended): an unescaped closing quote always ends the string
token, whatever character follows (whitespace, end of input, `=`, a
letter, …): the token's content is exactly the unescaped body and the
following text is untouched.  The whitespace/comment lookahead in the
source never changes the result. -/
theorem C2_quote_always_closes (s t : List Char) (l fuel : ℕ)
    (hnul : ∀ c ∈ s, c ≠ NUL) :
    ∃ l', get_token (fuel + 1) (('"' :: escape_string s ++ ['"']) ++ t) l =
      .ok (⟨.STRING, .s s, l⟩, t, l') :=
  get_token_string hnul

/-- C2 counterexample: in `"a"=5` the quote is immediately followed by
`=`, yet lexing returns the closed string token `a` and leaves `=5` —
the quote is not kept as literal content. -/
theorem C2_quote_closes_before_equals :
    get_token 9 ('"' :: 'a' :: '"' :: '=' :: '5' :: []) 1 =
      .ok (⟨.STRING, .s ['a'], 1⟩, ['=', '5'], 1) := rfl

/-- C2 witness: the quote of `"a"` closes before `=5`. -/
theorem C2_quote_always_closes_witness :
    (∀ c ∈ ['a'], c ≠ NUL) ∧
      ∃ l', get_token (3 + 1) (('"' :: escape_string ['a'] ++ ['"']) ++ ['=', '5']) 1 =
        .ok (⟨.STRING, .s ['a'], 1⟩, ['=', '5'], l') :=
  ⟨by decide, C2_quote_always_closes ['a'] ['=', '5'] 1 3 (by decide)⟩

/-- C3: the value parser has no `PackedStringArray`/`PoolStringArray`/
`StringArray` branch at all — a value using any of them is a fatal
`Unknown identifier` parse error, not an ordered string sequence. -/
theorem C3_packed_string_array_rejected :
    parse_config "config/tags=PackedStringArray(\"2d\", \"demo\")\n".toList =
      ⟨[], some ⟨"Unknown identifier: PackedStringArray", 1⟩⟩ := by
  decide

/-- C4: an input whose last line opens a quoted string that never closes
parses to the structured error `Unterminated string` carrying the 1-based
line number of the opening quote, together with the partial document
built before the failure (here the `a=1` pair), rather than an uncaught
fault. -/
theorem C4_unterminated_string_caught (n : ℕ) (s : List Char) (hq : '"' ∉ s) :
    parse_config ("a=1\n".toList ++
        (List.replicate n '\n' ++ ('k' :: '=' :: '"' :: s))) =
      ⟨[([], [("a".toList, .num (.finite 1))])],
        some ⟨"Unterminated string", n + 2⟩⟩ := by
  have hstream : ("a=1\n".toList ++
      (List.replicate n '\n' ++ ('k' :: '=' :: '"' :: s))) =
      'a' :: '=' :: '1' :: '\n' ::
        (List.replicate n '\n' ++ ('k' :: '=' :: '"' :: s)) := rfl
  rw [parse_config, hstream, parse_config_loop, skip_ws_not_ws (by decide)]
  dsimp only
  rw [show ('a' :: '=' :: '1' :: '\n' ::
      (List.replicate n '\n' ++ ('k' :: '=' :: '"' :: s))) =
      ['a'] ++ ('=' :: ('1' :: '\n' ::
        (List.replicate n '\n' ++ ('k' :: '=' :: '"' :: s)))) from rfl]
  rw [get_token_identifier (by decide) (headNotB_cons (by decide)) (by decide)
    (by decide)]
  dsimp only [tokValStr]
  rw [get_token_equal]
  dsimp only
  rw [if_pos rfl]
  rw [show ('1' :: '\n' :: (List.replicate n '\n' ++ ('k' :: '=' :: '"' :: s))) =
      qToChars 1 ++ ('\n' :: (List.replicate n '\n' ++ ('k' :: '=' :: '"' :: s)))
    from rfl]
  rw [parse_value, get_token_number (by decide)
    (fun c r h => by cases h; exact ⟨by decide, by decide⟩)]
  dsimp only [tokValToJVal]
  rw [docSet_create (show ([] : List Char) ∉ (([] : Doc)).map Prod.fst by simp)]
  rw [parse_config_loop_ws_all (by decide)]
  rw [show bumpLine '\n' 1 = 2 from rfl]
  rw [parse_config_loop_nls]
  obtain ⟨f₂, hf₂⟩ : ∃ f₂, (['a'] ++ ('=' :: (qToChars 1 ++ ('\n' ::
      (List.replicate n '\n' ++ ('k' :: '=' :: '"' :: s)))))).length = f₂ + 1 :=
    ⟨3 + (n + (3 + s.length)), by
      simp [show qToChars 1 = ['1'] from rfl]
      omega⟩
  rw [hf₂, parse_config_loop, skip_ws_not_ws (by decide)]
  dsimp only
  rw [show ('k' :: '=' :: '"' :: s) = ['k'] ++ ('=' :: ('"' :: s)) from rfl]
  rw [get_token_identifier (by decide) (headNotB_cons (by decide)) (by decide)
    (by decide)]
  dsimp only [tokValStr]
  rw [get_token_equal]
  dsimp only
  rw [if_pos rfl]
  rw [parse_value, get_token_unterminated hq]
  dsimp only
  simp [Nat.add_comm]

/-- C4 witness: three blank lines put the opening quote on line 5. -/
theorem C4_unterminated_string_caught_witness :
    parse_config ("a=1\n".toList ++
        (List.replicate 3 '\n' ++ ('k' :: '=' :: '"' :: "abc".toList))) =
      ⟨[([], [("a".toList, .num (.finite 1))])],
        some ⟨"Unterminated string", 3 + 2⟩⟩ :=
  C4_unterminated_string_caught 3 "abc".toList (by decide)

/-- C5 (amended): when both sides hold a plain object under a key,
`deepMerge` recurses exactly when the key is not named `options` and
otherwise overwrites the whole nested mapping (so the merge is not deep
"at every nesting level": any key named `options`, at any depth, is
replaced shallowly); the spec's two-preset example merges as claimed,
with the top-level `options` overlaid shallowly. -/
theorem C5_merge_options_shallow :
    (∀ (fuel : ℕ) (result : JSObj) (key : String) (tf sf rest : JSObj),
        mapGet? result key = some (.vobj tf) →
        deepMerge (fuel + 1) result ((key, .vobj sf) :: rest) =
          deepMerge fuel
            (if key ≠ "options"
             then mapSet result key (.vobj (deepMerge fuel tf sf))
             else mapSet result key (.vobj sf)) rest) ∧
    mergePresets 10 [baseC5, overrideC5] = .ok mergedC5 := by
  constructor
  · intro fuel result key tf sf rest h
    simp only [deepMerge, h]
  · rfl

/-- C5 counterexample: with a non-`options` field `x` nesting a mapping
under a key literally named `options`, the later preset's nested mapping
replaces the earlier one wholesale (`p` is dropped), not merged
key-by-key as the original claim's "at every nesting level" requires. -/
theorem C5_nested_options_overwritten :
    mergePresets 10 [nbaseC5, noverC5] =
      .ok [("x", JSVal.vobj [("options", JSVal.vobj [("q", JSVal.vnum (.finite 2))])]),
           ("options", JSVal.vobj [])] ∧
    mergePresets 10 [nbaseC5, noverC5] ≠
      .ok [("x", JSVal.vobj [("options",
             JSVal.vobj [("p", JSVal.vnum (.finite 1)), ("q", JSVal.vnum (.finite 2))])]),
           ("options", JSVal.vobj [])] := by
  refine ⟨rfl, ?_⟩
  intro h
  rw [show mergePresets 10 [nbaseC5, noverC5] =
      .ok [("x", JSVal.vobj [("options", JSVal.vobj [("q", JSVal.vnum (.finite 2))])]),
           ("options", JSVal.vobj [])] from rfl] at h
  simp at h

/-- C5 witness: one `deepMerge` step on a non-`options` key recurses into
the nested objects. -/
theorem C5_merge_options_shallow_witness :
    (mapGet? ([("x", JSVal.vobj [])] : JSObj) "x" = some (.vobj [])) ∧
    deepMerge (5 + 1) [("x", JSVal.vobj [])] [("x", JSVal.vobj [("b", JSVal.vbool true)])] =
      deepMerge 5
        (if ("x" : String) ≠ "options"
         then mapSet [("x", JSVal.vobj [])] "x"
           (.vobj (deepMerge 5 [] [("b", JSVal.vbool true)]))
         else mapSet [("x", JSVal.vobj [])] "x" (.vobj [("b", JSVal.vbool true)])) [] :=
  ⟨rfl, C5_merge_options_shallow.1 5 [("x", JSVal.vobj [])] "x" [] [("b", JSVal.vbool true)] [] rfl⟩

/-- C6 (amended): a `Color` value consumes a parenthesized,
comma-separated argument list whose arguments are number tokens or the
sentinel identifiers `inf`/`nan` (mapped to `+Infinity`/`NaN`); any count
other than 4 is the fatal arity error and a 4-argument list yields
`{r,g,b,a}` in order.  (The original claim's `-inf` is not accepted: a
`-` before an identifier is the fatal `Unexpected character: -`; see the
counterexample.) -/
theorem C6_color_arity (xs : List JNum) (rest : List Char) (l fuel : ℕ)
    (hxs : ∀ x ∈ xs, goodCtorArg x) (hfuel : xs.length + 1 < fuel + 1) :
    parse_value (fuel + 1)
        ("Color".toList ++ ('(' :: (ctorArgsText xs ++ ')' :: rest))) l =
      (match xs with
       | [r, g, b, a] => .ok (.color r g b a, rest, l)
       | _ => .error ⟨"Expected 4 arguments for Color constructor", l⟩) := by
  rw [parse_value, get_token_identifier (by decide) (headNotB_cons (by decide))
    (by decide) (by decide)]
  dsimp only [tokValStr]
  rw [if_pos rfl, parse_construct_args_printed hxs hfuel]
  rcases xs with _ | ⟨a1, _ | ⟨a2, _ | ⟨a3, _ | ⟨a4, _ | ⟨a5, xs'⟩⟩⟩⟩⟩ <;> rfl

/-- C6 counterexample: `-inf` as a `Color` argument is a fatal lex error,
not `-Infinity`. -/
theorem C6_minus_inf_rejected :
    parse_value 40 "Color(0, 0.5, 1, -inf)".toList 1 =
      .error ⟨"Unexpected character: -", 1⟩ := rfl

/-- C6 witness: `Color(0, 0.5, 1)` is the arity error and
`Color(0, 0.5, 1, 1)` parses to the four components in order. -/
theorem C6_color_arity_witness :
    ((∀ x ∈ ([.finite 0, .finite (mkRat 1 2), .finite 1] : List JNum), goodCtorArg x) ∧
      parse_value (40 + 1) ("Color".toList ++
          ('(' :: (ctorArgsText [.finite 0, .finite (mkRat 1 2), .finite 1] ++
            ')' :: []))) 1 =
        .error ⟨"Expected 4 arguments for Color constructor", 1⟩) ∧
    parse_value (40 + 1) ("Color".toList ++
        ('(' :: (ctorArgsText [.finite 0, .finite (mkRat 1 2), .finite 1, .finite 1] ++
          ')' :: []))) 1 =
      .ok (.color (.finite 0) (.finite (mkRat 1 2)) (.finite 1) (.finite 1), [], 1) :=
  ⟨⟨by decide, C6_color_arity [.finite 0, .finite (mkRat 1 2), .finite 1] [] 1 40
      (by decide) (by decide)⟩,
    C6_color_arity [.finite 0, .finite (mkRat 1 2), .finite 1, .finite 1] [] 1 40
      (by decide) (by decide)⟩

/-- C7: a key is emitted bare exactly when it is nonempty and every
character's code lies in `[33, 126]` and is none of `=`, `"`, `;`, `[`,
`]`; otherwise it is emitted quoted with `\` and `"` escaped — and
storing value `7` under key `a=b` in section `s` serializes to text
containing the line `"a=b"=7`. -/
theorem C7_key_quoting :
    (∀ k : List Char,
      (encode_key k = k ↔ (k ≠ [] ∧ ∀ c ∈ k, 33 ≤ c.toNat ∧ c.toNat ≤ 126 ∧
        c ≠ '=' ∧ c ≠ '"' ∧ c ≠ ';' ∧ c ≠ '[' ∧ c ≠ ']')) ∧
      (needs_quotes k = true → encode_key k = '"' :: escape_string k ++ ['"'])) ∧
    serialize_config (ConfigFile.set_value [] ['s'] "a=b".toList (.num (.finite 7))) =
      ('[' :: 's' :: ']' :: '\n' :: '\n' :: '"' :: 'a' :: '=' :: 'b' :: '"' ::
        '=' :: '7' :: '\n' :: []) := by
  constructor
  · intro k
    refine ⟨(encode_key_bare_iff k).trans (needs_quotes_false_iff k), fun hq => ?_⟩
    rw [encode_key, if_pos hq]
  · decide

/-- C7 witness: the key `a=b` is not bare, and is quoted with escapes. -/
theorem C7_key_quoting_witness :
    encode_key "a=b".toList ≠ "a=b".toList ∧
    encode_key "a=b".toList = '"' :: escape_string "a=b".toList ++ ['"'] :=
  ⟨fun h => absurd rfl (((C7_key_quoting.1 "a=b".toList).1.mp h).2 '='
      (by decide)).2.2.1,
    (C7_key_quoting.1 "a=b".toList).2 (by decide)⟩

/-- C8: the parser does not honor `\]` in a section header — lexing the
header name stops at the backslash and the parse fails with
`Unexpected character` — even though the serializer itself emits `\]`
for a section name containing `]`. -/
theorem C8_escaped_bracket_rejected :
    parse_config "[a\\]b]\nk=1\n".toList =
      ⟨[], some ⟨"Unexpected character: \\", 1⟩⟩ ∧
    serialize_config [("a]b".toList, [(['k'], .num (.finite 1))])] =
      "[a\\]b]\n\nk=1\n".toList := by
  exact ⟨by decide, by decide⟩

/-- C9: `ConfigFile.parse` reports the parse error as its result and
leaves the stored document untouched on failure; only a clean parse
installs the newly parsed document. -/
theorem C9_parse_keeps_stored_on_error (stored : Doc) (content : List Char) :
    (ConfigFile.parse stored content).1 = (parse_config content).error ∧
    (ConfigFile.parse stored content).2 =
      (match (parse_config content).error with
       | some _ => stored
       | none => (parse_config content).values) := by
  cases h : (parse_config content).error <;>
    simp [ConfigFile.parse, h]

/-- C9 witness: a failing parse keeps the stored section map. -/
theorem C9_parse_keeps_stored_on_error_witness :
    (ConfigFile.parse [(['s'], [(['k'], JValue.bool true)])] "x=\"".toList).1 =
      some ⟨"Unterminated string", 1⟩ ∧
    (ConfigFile.parse [(['s'], [(['k'], JValue.bool true)])] "x=\"".toList).2 =
      [(['s'], [(['k'], JValue.bool true)])] :=
  ⟨(C9_parse_keeps_stored_on_error [(['s'], [(['k'], JValue.bool true)])]
      "x=\"".toList).1.trans (by decide),
    (C9_parse_keeps_stored_on_error [(['s'], [(['k'], JValue.bool true)])]
      "x=\"".toList).2.trans (by decide)⟩

/-- C10: every record `parseExportPresets` returns is built by
`buildPresetFields` from its section's entries, so `name`, `platform`
and `runnable` are always present — defaulting to `""`, `""` and `false`
when the section lacks them — and a key literally named `options` inside
the section is never copied into the record. -/
theorem C10_preset_defaults (content : List Char) (presets : List ExportPreset)
    (h : parseExportPresets content = .ok presets) :
    ∀ p ∈ presets, ∃ kvs : SectionMap,
      p.fields = buildPresetFields kvs ∧
      mapGet? p.fields "options".toList = none ∧
      mapGet? p.fields "name".toList ≠ none ∧
      mapGet? p.fields "platform".toList ≠ none ∧
      mapGet? p.fields "runnable".toList ≠ none ∧
      ("name".toList ∉ kvs.map Prod.fst →
        mapGet? p.fields "name".toList = some (.str [])) ∧
      ("platform".toList ∉ kvs.map Prod.fst →
        mapGet? p.fields "platform".toList = some (.str [])) ∧
      ("runnable".toList ∉ kvs.map Prod.fst →
        mapGet? p.fields "runnable".toList = some (.bool false)) := by
  intro p hp
  cases herr : (parse_config content).error with
  | some e =>
      simp only [parseExportPresets, herr] at h
      exact Except.noConfusion h
  | none =>
      simp only [parseExportPresets, herr, Except.ok.injEq] at h
      subst h
      obtain ⟨ps, hps, hpeq⟩ := List.mem_map.mp hp
      subst hpeq
      refine ⟨ConfigFile.section_entries (parse_config content).values ps, rfl,
        buildPresetFields_options (by decide),
        (buildPresetFields_foldl_get (fun _ => by decide)).1 (by decide),
        (buildPresetFields_foldl_get (fun _ => by decide)).1 (by decide),
        (buildPresetFields_foldl_get (fun _ => by decide)).1 (by decide),
        fun hab => ((buildPresetFields_foldl_get (fun _ => by decide)).2 hab).trans
          (by decide),
        fun hab => ((buildPresetFields_foldl_get (fun _ => by decide)).2 hab).trans
          (by decide),
        fun hab => ((buildPresetFields_foldl_get (fun _ => by decide)).2 hab).trans
          (by decide)⟩

/-- C10 witness: parsing `contentC10` yields the two records with the
defaults filled in; the first record satisfies every clause. -/
theorem C10_preset_defaults_witness :
    parseExportPresets contentC10 = .ok presetsC10 ∧
    ∃ kvs : SectionMap,
      (presetsC10.headD ⟨[], none⟩).fields = buildPresetFields kvs ∧
      mapGet? (presetsC10.headD ⟨[], none⟩).fields "options".toList = none ∧
      mapGet? (presetsC10.headD ⟨[], none⟩).fields "name".toList ≠ none ∧
      mapGet? (presetsC10.headD ⟨[], none⟩).fields "platform".toList ≠ none ∧
      mapGet? (presetsC10.headD ⟨[], none⟩).fields "runnable".toList ≠ none ∧
      ("name".toList ∉ kvs.map Prod.fst →
        mapGet? (presetsC10.headD ⟨[], none⟩).fields "name".toList =
          some (.str [])) ∧
      ("platform".toList ∉ kvs.map Prod.fst →
        mapGet? (presetsC10.headD ⟨[], none⟩).fields "platform".toList =
          some (.str [])) ∧
      ("runnable".toList ∉ kvs.map Prod.fst →
        mapGet? (presetsC10.headD ⟨[], none⟩).fields "runnable".toList =
          some (.bool false)) :=
  ⟨rfl, C10_preset_defaults contentC10 presetsC10 rfl
    (presetsC10.headD ⟨[], none⟩) (by decide)⟩

end GodotCfg
